import Mathlib

/-!
Verification of the medea signalling core, shallowly embedded from
`src/media/peer.rs`, `src/signalling/peers.rs` and
`src/signalling/participants.rs` / `src/signalling/members_manager.rs`.

Identifiers (`TrackId`, `PeerId`) are embedded as `Nat`, `MemberId` as
`String`.  Rust `HashMap`s are embedded as association lists keyed by the
id (key-unique by construction), `Vec`s as `List`s, and the
`PeerUpdatesSubscriber` callbacks as an explicit list of emitted events
returned alongside the new state.
-/

set_option autoImplicit false

namespace Medea

/-- Modelled from the spec: `TrackPatchEvent` lives in the
`medea-client-api-proto` crate, which is not under `src/`; its fields
(`id`, `enabled_individual`, `enabled_general`) are the ones read and
written by `src/media/peer.rs`. -/
structure TrackPatchEvent where
  id : Nat
  enabled_individual : Option Bool
  enabled_general : Option Bool
  deriving DecidableEq, Repr

/-- Modelled from the spec: `TrackPatchEvent::new(id)` (missing
`medea-client-api-proto` crate) returns a patch for `id` with every other
field absent, as used by `TrackPatchDeduper::drain_merge`. -/
def TrackPatchEvent.new (id : Nat) : TrackPatchEvent :=
  { id := id, enabled_individual := none, enabled_general := none }

/-- Modelled from the spec: per-field merge of two patches, "later
non-absent values override earlier ones" (spec §4.1 dedup rules); the
merged patch keeps the id of the accumulator. -/
def TrackPatchEvent.merge (a b : TrackPatchEvent) : TrackPatchEvent :=
  { id := a.id
    enabled_individual := b.enabled_individual.orElse fun _ => a.enabled_individual
    enabled_general := b.enabled_general.orElse fun _ => a.enabled_general }

/-- Modelled from the spec: `TrackPatchCommand {id, enabled?}` (spec §6,
missing `medea-client-api-proto` crate). -/
structure TrackPatchCommand where
  id : Nat
  enabled : Option Bool
  deriving DecidableEq, Repr

/-- Modelled from the spec: conversion of a `TrackPatchCommand` into a
`TrackPatchEvent` (the `From` impl of the missing proto crate): the
command's `enabled` becomes `enabled_individual`; `enabled_general`
starts absent, which is what the source test `track_patch_dedup_works`
in `src/media/peer.rs` observes. -/
def TrackPatchCommand.toEvent (c : TrackPatchCommand) : TrackPatchEvent :=
  { id := c.id, enabled_individual := c.enabled, enabled_general := none }

/-- Modelled from the spec: media source kind of a video track
(missing proto crate; constructed in `PeerChangesScheduler::add_publisher`). -/
inductive MediaSourceKind
  | Device
  | Display
  deriving DecidableEq, Repr

/-- Modelled from the spec: immutable media type of a track (spec §3,
missing proto crate). -/
inductive MediaType
  | Audio (required : Bool)
  | Video (required : Bool) (source_kind : MediaSourceKind)
  deriving DecidableEq, Repr

/-- Modelled from the spec: a `MediaTrack` (spec §3: "immutable media-type
plus mutable exchange/mute flags"; the crate file `src/media/track.rs` is
not under `src/`).  The two media-exchange flags correspond to the
send-side and recv-side states toggled by
`set_send_media_exchange_state` / `set_recv_media_exchange_state` in
`src/media/peer.rs`. -/
structure MediaTrack where
  id : Nat
  media_type : MediaType
  mid : Option String
  send_media_exchange : Bool
  recv_media_exchange : Bool
  deriving DecidableEq, Repr

/-- Modelled from the spec: a freshly created track has both
media-exchange flags enabled and no mid yet. -/
def MediaTrack.new (id : Nat) (mt : MediaType) : MediaTrack :=
  { id := id, media_type := mt, mid := none
    send_media_exchange := true, recv_media_exchange := true }

/-- Modelled from the spec: the observed "general" media-exchange state of
a track is that both of its directions are enabled. -/
def MediaTrack.is_media_exchange_enabled (t : MediaTrack) : Bool :=
  t.send_media_exchange && t.recv_media_exchange

def MediaTrack.set_send_media_exchange_state (t : MediaTrack) (e : Bool) :
    MediaTrack :=
  { t with send_media_exchange := e }

def MediaTrack.set_recv_media_exchange_state (t : MediaTrack) (e : Bool) :
    MediaTrack :=
  { t with recv_media_exchange := e }

/-- `TrackChange` from `src/media/peer.rs`: changes the remote peer is not
aware of. -/
inductive TrackChange
  | AddSendTrack (t : MediaTrack)
  | AddRecvTrack (t : MediaTrack)
  | TrackPatch (p : TrackPatchEvent)
  | PartnerTrackPatch (p : TrackPatchEvent)
  | IceRestart
  deriving DecidableEq, Repr

/-- `TrackChange::can_force_apply` from `src/media/peer.rs`. -/
def TrackChange.can_force_apply : TrackChange → Bool
  | .AddSendTrack _ | .AddRecvTrack _ | .IceRestart => false
  | .TrackPatch _ | .PartnerTrackPatch _ => true

/-- Direction of a `Track` sent to the client (from the proto crate as
used by `TrackChange::as_track_update`). -/
inductive TrackDirection
  | Send (receivers : List String) (mid : Option String)
  | Recv (sender : String) (mid : Option String)
  deriving DecidableEq, Repr

/-- A `Track` descriptor sent to the client inside `TrackUpdate::Added`. -/
structure Track where
  id : Nat
  media_type : MediaType
  direction : TrackDirection
  deriving DecidableEq, Repr

/-- `TrackUpdate` event payload (proto), built by
`TrackChange::as_track_update`. -/
inductive TrackUpdate
  | Added (t : Track)
  | Updated (p : TrackPatchEvent)
  | IceRestart
  deriving DecidableEq, Repr

/-- `TrackChange::as_track_update` from `src/media/peer.rs`. -/
def TrackChange.as_track_update (partner_member_id : String) :
    TrackChange → TrackUpdate
  | .AddSendTrack t =>
      .Added { id := t.id, media_type := t.media_type
               direction := .Send [partner_member_id] t.mid }
  | .AddRecvTrack t =>
      .Added { id := t.id, media_type := t.media_type
               direction := .Recv partner_member_id t.mid }
  | .TrackPatch p | .PartnerTrackPatch p => .Updated p
  | .IceRestart => .IceRestart

/-- Association-list lookup keyed by an id (the embedding of Rust
`HashMap` reads). -/
def alookup {κ α : Type} [DecidableEq κ] (k : κ) : List (κ × α) → Option α
  | [] => none
  | (k', v) :: rest => if k' = k then some v else alookup k rest

/-- Association-list insert-or-replace (the embedding of Rust
`HashMap::insert`). -/
def ainsert {κ α : Type} [DecidableEq κ] (k : κ) (v : α) :
    List (κ × α) → List (κ × α)
  | [] => [(k, v)]
  | (k', v') :: rest =>
      if k' = k then (k, v) :: rest else (k', v') :: ainsert k v rest

/-- `TrackPatchDeduper` from `src/media/peer.rs`: merges `TrackPatchEvent`s
from different sources under an optional whitelist.  The `result` map is
embedded as an insertion-ordered association list. -/
structure TrackPatchDeduper where
  result : List (Nat × TrackPatchEvent)
  whitelist : Option (List Nat)
  deriving DecidableEq, Repr

/-- `TrackPatchDeduper::new`. -/
def TrackPatchDeduper.mkNew : TrackPatchDeduper :=
  { result := [], whitelist := none }

/-- `TrackPatchDeduper::with_whitelist`. -/
def TrackPatchDeduper.with_whitelist (wl : List Nat) : TrackPatchDeduper :=
  { result := [], whitelist := some wl }

/-- Whitelist test done inside `TrackPatchDeduper::drain_merge`: with no
whitelist every patch is mergeable. -/
def inWhitelist (w : Option (List Nat)) (id : Nat) : Bool :=
  match w with
  | none => true
  | some wl => wl.contains id

/-- The retain predicate of `TrackPatchDeduper::drain_merge`, as the patch
a change contributes: `none` means the change is retained in the input
(non-force-applicable changes, `PartnerTrackPatch`es, and patches outside
the whitelist), `some p` means `p` is drained and merged. -/
def drainedPatch (w : Option (List Nat)) : TrackChange → Option TrackPatchEvent
  | .TrackPatch p => if inWhitelist w p.id then some p else none
  | _ => none

/-- `self.result.entry(patch.id).or_insert_with(new).merge(patch)` from
`TrackPatchDeduper::drain_merge`. -/
def mergeInto (r : List (Nat × TrackPatchEvent)) (p : TrackPatchEvent) :
    List (Nat × TrackPatchEvent) :=
  match r with
  | [] => [(p.id, (TrackPatchEvent.new p.id).merge p)]
  | (k, v) :: rest =>
      if k = p.id then (k, v.merge p) :: rest else (k, v) :: mergeInto rest p

/-- The `retain` loop of `TrackPatchDeduper::drain_merge`: walks the
changes left to right, merging drained patches into the result map and
returning the retained changes. -/
def drainMergeGo (w : Option (List Nat)) :
    List (Nat × TrackPatchEvent) → List TrackChange →
    List (Nat × TrackPatchEvent) × List TrackChange
  | r, [] => (r, [])
  | r, c :: rest =>
    match drainedPatch w c with
    | some p => drainMergeGo w (mergeInto r p) rest
    | none =>
        let g := drainMergeGo w r rest
        (g.1, c :: g.2)

/-- `TrackPatchDeduper::drain_merge` from `src/media/peer.rs`; returns the
updated deduper together with the retained input changes. -/
def TrackPatchDeduper.drain_merge (d : TrackPatchDeduper)
    (changes : List TrackChange) : TrackPatchDeduper × List TrackChange :=
  let g := drainMergeGo d.whitelist d.result changes
  ({ d with result := g.1 }, g.2)

/-- `TrackPatchDeduper::into_inner`: one `TrackChange::TrackPatch` per
merged `TrackId`. -/
def TrackPatchDeduper.into_inner (d : TrackPatchDeduper) : List TrackChange :=
  d.result.map fun kv => TrackChange.TrackPatch kv.2

/-- The `Context` of a `Peer` from `src/media/peer.rs`.  `ice_user`,
`endpoints` and the subscriber handle are omitted: the subscriber is
embedded as the list of `PeerEvent`s returned by the operations, and no
claim inspects `ice_user`/`endpoints` of this `Peer` variant. -/
structure Context where
  id : Nat
  member_id : String
  partner_peer : Nat
  partner_member : String
  sdp_offer : Option String
  sdp_answer : Option String
  receivers : List (Nat × MediaTrack)
  senders : List (Nat × MediaTrack)
  is_force_relayed : Bool
  is_known_to_remote : Bool
  pending_track_updates : List TrackChange
  track_changes_queue : List TrackChange
  deriving DecidableEq, Repr

/-- The calls a `Peer` makes on its `PeerUpdatesSubscriber`, reified. -/
inductive PeerEvent
  | negotiation_needed (peer_id : Nat)
  | force_update (peer_id : Nat) (changes : List TrackUpdate)
  deriving DecidableEq, Repr

/-- `Peer::get_updates` from `src/media/peer.rs`. -/
def Context.get_updates (c : Context) : List TrackUpdate :=
  c.pending_track_updates.map (·.as_track_update c.partner_member)

/-- `TrackChangeHandler::on_track_patch` from `src/media/peer.rs`. -/
def Context.on_track_patch (c : Context) (patch : TrackPatchEvent) :
    Context × TrackChange :=
  match patch.enabled_individual with
  | some enabled =>
    match alookup patch.id c.senders with
    | some tx =>
        let tx' := tx.set_send_media_exchange_state enabled
        ({ c with senders := ainsert patch.id tx' c.senders },
         .TrackPatch
           { patch with enabled_general := some tx'.is_media_exchange_enabled })
    | none =>
      match alookup patch.id c.receivers with
      | some rx =>
          let rx' := rx.set_recv_media_exchange_state enabled
          ({ c with receivers := ainsert patch.id rx' c.receivers },
           .TrackPatch
             { patch with
                 enabled_general := some rx'.is_media_exchange_enabled })
      | none => (c, .TrackPatch patch)
  | none => (c, .TrackPatch patch)

/-- `TrackChangeHandler::on_partner_track_patch` from `src/media/peer.rs`:
resets `enabled_individual`, and sets `enabled_general` iff the provided
individual state equals the track's general media-exchange state. -/
def Context.on_partner_track_patch (c : Context) (patch : TrackPatchEvent) :
    Context × TrackChange :=
  match patch.enabled_individual with
  | some enabled_individual =>
    let patch1 := { patch with enabled_individual := none }
    match (alookup patch.id c.senders).orElse
        (fun _ => alookup patch.id c.receivers) with
    | some track =>
        if enabled_individual = track.is_media_exchange_enabled then
          (c, .TrackPatch
            { patch1 with
                enabled_general := some track.is_media_exchange_enabled })
        else (c, .TrackPatch patch1)
    | none => (c, .TrackPatch patch1)
  | none => (c, .TrackPatch patch)

/-- `TrackChange::dispatch_with` resolved against the
`TrackChangeHandler` impl for `Peer<T>` in `src/media/peer.rs`. -/
def Context.applyTrackChange (c : Context) : TrackChange → Context × TrackChange
  | .AddSendTrack t =>
      ({ c with senders := ainsert t.id t c.senders }, .AddSendTrack t)
  | .AddRecvTrack t =>
      ({ c with receivers := ainsert t.id t c.receivers }, .AddRecvTrack t)
  | .TrackPatch p => c.on_track_patch p
  | .PartnerTrackPatch p => c.on_partner_track_patch p
  | .IceRestart => (c, .IceRestart)

/-- The application loop of `Peer<Stable>::commit_scheduled_changes`:
dispatches each drained change and pushes its record onto
`pending_track_updates`. -/
def Context.applyChanges : Context → List TrackChange → Context
  | c, [] => c
  | c, ch :: rest =>
    let ca := c.applyTrackChange ch
    Context.applyChanges
      { ca.1 with
          pending_track_updates := ca.1.pending_track_updates ++ [ca.2] }
      rest

/-- Matches `TrackChange::IceRestart`. -/
def isIceRestart : TrackChange → Bool
  | .IceRestart => true
  | _ => false

/-- The `retain` closure of `Peer::dedup_ice_restarts` with its running
index `i`: keeps the element at index `k` (the last `IceRestart`) and all
non-`IceRestart` elements. -/
def retainIceAt (k : Nat) : Nat → List TrackChange → List TrackChange
  | _, [] => []
  | i, c :: rest =>
      if i = k ∨ isIceRestart c = false then c :: retainIceAt k (i + 1) rest
      else retainIceAt k (i + 1) rest

/-- Index of the last `IceRestart`, computed as in
`Peer::dedup_ice_restarts` via the reversed list. -/
def lastIceRestartIdx (l : List TrackChange) : Option Nat :=
  (l.reverse.findIdx? isIceRestart).map fun i => l.length - 1 - i

/-- `Peer::dedup_ice_restarts` from `src/media/peer.rs`, on the pending
updates list. -/
def dedupIceRestartsList (l : List TrackChange) : List TrackChange :=
  match lastIceRestartIdx l with
  | some k => retainIceAt k 0 l
  | none => l

def Context.dedup_ice_restarts (c : Context) : Context :=
  { c with
      pending_track_updates := dedupIceRestartsList c.pending_track_updates }

/-- `Peer::dedup_track_patches` from `src/media/peer.rs`: drain-merge the
pending updates with a fresh whitelist-free deduper and append the merged
patches. -/
def Context.dedup_track_patches (c : Context) : Context :=
  let dm := TrackPatchDeduper.mkNew.drain_merge c.pending_track_updates
  { c with pending_track_updates := dm.2 ++ dm.1.into_inner }

/-- `Peer::dedup_pending_track_updates` from `src/media/peer.rs`. -/
def Context.dedup_pending_track_updates (c : Context) : Context :=
  c.dedup_ice_restarts.dedup_track_patches

/-- `Peer<Stable>::commit_scheduled_changes` from `src/media/peer.rs`. -/
def Context.commit_scheduled_changes (c : Context) : Context × List PeerEvent :=
  if c.track_changes_queue.isEmpty then (c, [])
  else
    let queue := c.track_changes_queue
    let c1 := Context.applyChanges { c with track_changes_queue := [] } queue
    (c1.dedup_pending_track_updates, [.negotiation_needed c.id])

/-- `Peer<Stable>::negotiation_finished` from `src/media/peer.rs`. -/
def Context.negotiation_finished (c : Context) : Context × List PeerEvent :=
  Context.commit_scheduled_changes
    { c with is_known_to_remote := true, pending_track_updates := [] }

/-- The loop of `Peer::inner_force_commit_scheduled_changes`: dispatches
force-applicable changes in queue order and collects the rest. Returns
the mutated context, the dispatched records, and the retained queue. -/
def Context.forceLoop :
    Context → List TrackChange → Context × List TrackChange × List TrackChange
  | c, [] => (c, [], [])
  | c, ch :: rest =>
    if ch.can_force_apply then
      let ca := c.applyTrackChange ch
      let g := Context.forceLoop ca.1 rest
      (g.1, ca.2 :: g.2.1, g.2.2)
    else
      let g := Context.forceLoop c rest
      (g.1, g.2.1, ch :: g.2.2)

/-- `Peer::inner_force_commit_scheduled_changes` from `src/media/peer.rs`. -/
def Context.inner_force_commit_scheduled_changes (c : Context) :
    Context × List PeerEvent :=
  let fl :=
    Context.forceLoop { c with track_changes_queue := [] }
      c.track_changes_queue
  let c2 := { fl.1 with track_changes_queue := fl.2.2 }
  let wl : List Nat := fl.2.1.filterMap fun t =>
    match t with
    | .TrackPatch p => some p.id
    | _ => none
  let dm1 :=
    (TrackPatchDeduper.with_whitelist wl).drain_merge c2.pending_track_updates
  let dm2 := dm1.1.drain_merge fl.2.1
  let updates := dm2.1.into_inner.map (·.as_track_update c.partner_member)
  let c3 := { c2 with pending_track_updates := dm1.2 }
  if updates.isEmpty then (c3, [])
  else (c3, [.force_update c.id updates])

/-- State tag of the `Peer` state machine (`src/media/peer.rs`); the
design-note embedding of the typestate as a tagged variant. -/
inductive PeerState
  | WaitLocalSdp
  | WaitRemoteSdp
  | Stable
  deriving DecidableEq, Repr

/-- `PeerStateMachine` as a tagged context. -/
structure PeerSM where
  state : PeerState
  ctx : Context
  deriving DecidableEq, Repr

/-- `Peer<WaitLocalSdp>::set_local_answer`: stores the local answer,
transitions to `Stable` and runs `negotiation_finished`. -/
def Context.set_local_answer (c : Context) (sdp : String) :
    PeerSM × List PeerEvent :=
  let nf := Context.negotiation_finished { c with sdp_answer := some sdp }
  ({ state := .Stable, ctx := nf.1 }, nf.2)

/-- `Peer<WaitRemoteSdp>::set_remote_answer`: stores the remote answer,
transitions to `Stable` and runs `negotiation_finished`. -/
def Context.set_remote_answer (c : Context) (sdp : String) :
    PeerSM × List PeerEvent :=
  let nf := Context.negotiation_finished { c with sdp_answer := some sdp }
  ({ state := .Stable, ctx := nf.1 }, nf.2)

/-- `Peer<WaitLocalSdp>::set_local_offer`. -/
def Context.set_local_offer (c : Context) (sdp : String) : PeerSM :=
  { state := .WaitRemoteSdp, ctx := { c with sdp_offer := some sdp } }

/-- `Peer<WaitRemoteSdp>::set_remote_offer`. -/
def Context.set_remote_offer (c : Context) (sdp : String) : PeerSM :=
  { state := .WaitLocalSdp, ctx := { c with sdp_offer := some sdp } }

/-- `PeerStateMachine::commit_scheduled_changes`: applies scheduled
changes only when the peer is `Stable`; the `Bool` is the source's return
value. -/
def PeerSM.commit_scheduled_changes (p : PeerSM) :
    PeerSM × List PeerEvent × Bool :=
  match p.state with
  | .Stable =>
      let cc := p.ctx.commit_scheduled_changes
      ({ p with ctx := cc.1 }, cc.2, true)
  | _ => (p, [], false)

/-- `PeerStateMachine::force_commit_scheduled_changes`: commit normally on
`Stable`, otherwise run the forcible commit. -/
def PeerSM.force_commit_scheduled_changes (p : PeerSM) :
    PeerSM × List PeerEvent :=
  match p.state with
  | .Stable =>
      let cc := p.ctx.commit_scheduled_changes
      ({ p with ctx := cc.1 }, cc.2)
  | _ =>
      let cc := p.ctx.inner_force_commit_scheduled_changes
      ({ p with ctx := cc.1 }, cc.2)

/-- `PeerChangesScheduler::schedule_change`: only appends to the queue. -/
def Context.schedule_change (c : Context) (job : TrackChange) : Context :=
  { c with track_changes_queue := c.track_changes_queue ++ [job] }

/-- `PeerChangesScheduler::patch_tracks`. -/
def Context.patch_tracks (c : Context) (patches : List TrackPatchCommand) :
    Context :=
  patches.foldl (fun acc p => acc.schedule_change (.TrackPatch p.toEvent)) c

/-- `PeerChangesScheduler::partner_patch_tracks`. -/
def Context.partner_patch_tracks (c : Context)
    (patches : List TrackPatchCommand) : Context :=
  patches.foldl
    (fun acc p => acc.schedule_change (.PartnerTrackPatch p.toEvent)) c

/-- `PeerChangesScheduler::restart_ice`. -/
def Context.restart_ice (c : Context) : Context :=
  c.schedule_change .IceRestart

/-! ## Specification helpers

Pure record/observation helpers used to state properties about the
embedding, defined separately from the embedded functions so theorems
relate the two. -/

/-- The records produced by dispatching a list of changes in order (the
specification-side decomposition of `Context.applyChanges`). -/
def changeRecords : Context → List TrackChange → List TrackChange
  | _, [] => []
  | c, ch :: rest =>
    let ca := c.applyTrackChange ch
    ca.2 :: changeRecords
      { ca.1 with
          pending_track_updates := ca.1.pending_track_updates ++ [ca.2] }
      rest

/-- The `TrackChange::TrackPatch` payloads for a given `TrackId` in a
change list, in order. -/
def patchesForId (l : List TrackChange) (i : Nat) : List TrackPatchEvent :=
  l.filterMap fun ch =>
    match ch with
    | .TrackPatch p => if p.id = i then some p else none
    | _ => none

/-- Keys of an association list. -/
def akeys {κ α : Type} (l : List (κ × α)) : List κ :=
  l.map (·.1)

/-- Association-list erase of every entry with the given key (the
embedding of `HashMap::remove` on key-unique maps). -/
def aerase {κ α : Type} [DecidableEq κ] (k : κ) :
    List (κ × α) → List (κ × α)
  | [] => []
  | (k', v) :: rest =>
      if k' = k then aerase k rest else (k', v) :: aerase k rest

/-- Number of `IceRestart` entries in a change list. -/
def countIce (l : List TrackChange) : Nat :=
  (l.filter isIceRestart).length

/-- The pending-updates transformation performed by
`dedup_pending_track_updates`, as a pure list function (the
specification-side decomposition): IceRestart dedup, then drain-merge
with the merged patches appended after the retained entries. -/
def dedupRecords (l : List TrackChange) : List TrackChange :=
  (drainMergeGo none [] (dedupIceRestartsList l)).2
    ++ ((drainMergeGo none [] (dedupIceRestartsList l)).1.map
        fun kv => TrackChange.TrackPatch kv.2)

/-- The records dispatched from the force-applicable queue entries by
`inner_force_commit_scheduled_changes`. -/
def forceRecords (c : Context) : List TrackChange :=
  (Context.forceLoop { c with track_changes_queue := [] }
    c.track_changes_queue).2.1

/-- The whitelist `inner_force_commit_scheduled_changes` builds: the ids
of the `TrackPatch` records dispatched from the force-applicable queue
entries. -/
def forcePatchIds (c : Context) : List Nat :=
  (forceRecords c).filterMap fun t =>
    match t with
    | .TrackPatch p => some p.id
    | _ => none

/-- The update list `inner_force_commit_scheduled_changes` builds:
pending updates and dispatched forcible records drain-merged under the
forcible-id whitelist, then rendered as `TrackUpdate`s. -/
def forceUpdatesOf (c : Context) : List TrackUpdate :=
  (((drainMergeGo (some (forcePatchIds c))
      ((drainMergeGo (some (forcePatchIds c)) []
        ((Context.forceLoop { c with track_changes_queue := [] }
          c.track_changes_queue).1.pending_track_updates)).1)
      (forceRecords c)).1).map fun kv => TrackChange.TrackPatch kv.2).map
    (TrackChange.as_track_update c.partner_member)

/-- Ids of the `TrackUpdate::Updated` entries of an update list. -/
def updateIds (us : List TrackUpdate) : List Nat :=
  us.filterMap fun u =>
    match u with
    | .Updated p => some p.id
    | _ => none

/-! ## PeerRepository (`src/signalling/peers.rs`)

This part of the source uses the other (divergent) `Peer` variant
(`Peer<New>`, five-argument `Peer::new`, `Peer::add_publisher` as a
direct method), whose own file is not under `src/`; those pieces are
modelled from the spec below, while the `connect_endpoints` /
`remove_peers` control flow is embedded from `src/signalling/peers.rs`
itself. -/

/-- Modelled from the spec: publish policy of an endpoint's media setting
(`webrtc_publish_endpoint.rs` is not under `src/`); only `Disabled` vs
not, and `required()`, are observable in the embedded code paths. -/
inductive PublishPolicy
  | Optional
  | Required
  | Disabled
  deriving DecidableEq, Repr

/-- Modelled from the spec: `PublishPolicy::required()`. -/
def PublishPolicy.isRequired : PublishPolicy → Bool
  | .Required => true
  | _ => false

/-- Modelled from the spec: the `WebRtcPublishEndpoint` fields read by
`connect_endpoints` and `add_publisher` (owner id, audio/video publish
policies, force-relay flag). -/
structure WebRtcPublishEndpoint where
  owner : String
  audio_policy : PublishPolicy
  video_policy : PublishPolicy
  force_relayed : Bool
  deriving DecidableEq, Repr

/-- Modelled from the spec: the `WebRtcPlayEndpoint` fields read by
`connect_endpoints`. -/
structure WebRtcPlayEndpoint where
  owner : String
  force_relayed : Bool
  deriving DecidableEq, Repr

/-- The signalling-side peer stored in the `PeerRepository`
(`src/signalling/peers.rs` uses the divergent `Peer<New>` variant whose
file is not under `src/`); fields are those the embedded repository code
reads, with `IceUser` as an opaque `Nat` handle. -/
structure SPeer where
  id : Nat
  member_id : String
  partner_peer : Nat
  partner_member : String
  is_force_relayed : Bool
  ice_user : Option Nat
  senders : List (Nat × MediaTrack)
  receivers : List (Nat × MediaTrack)
  deriving DecidableEq, Repr

/-- Modelled from the spec: the five-argument `Peer::new` used by
`PeerRepository::create_peers`: fresh peer with no ice user and no
tracks. -/
def SPeer.new (id : Nat) (member_id : String) (partner_peer : Nat)
    (partner_member : String) (is_force_relayed : Bool) : SPeer :=
  { id := id, member_id := member_id, partner_peer := partner_peer
    partner_member := partner_member, is_force_relayed := is_force_relayed
    ice_user := none, senders := [], receivers := [] }

/-- `RoomError` cases reachable from the embedded repository code. -/
inductive RoomError
  | TurnServiceFailed (msg : String)
  | PeerNotFound (peer_id : Nat)
  deriving DecidableEq, Repr

/-- `PeerRepository` from `src/signalling/peers.rs`: peers map and the two
monotonic id counters. -/
structure PeerRepository where
  peers : List (Nat × SPeer)
  peers_count : Nat
  tracks_count : Nat
  deriving DecidableEq, Repr

/-- `PeerRepository::add_peer`. -/
def PeerRepository.add_peer (r : PeerRepository) (p : SPeer) :
    PeerRepository :=
  { r with peers := ainsert p.id p r.peers }

/-- `PeerRepository::get_peer_by_members_ids`. -/
def PeerRepository.get_peer_by_members_ids (r : PeerRepository)
    (member_id partner_member_id : String) : Option (Nat × Nat) :=
  (r.peers.find? fun kv =>
      kv.2.member_id == member_id
        && kv.2.partner_member == partner_member_id).map
    fun kv => (kv.2.id, kv.2.partner_peer)

/-- Modelled from the spec: `Peer::add_publisher` of the divergent peer
variant (spec §4.2: "one audio track if the publish policy ≠ Disabled,
one device-video track plus one display-video track if video ≠
Disabled"); send tracks go to the source peer, matching recv tracks to
the sink peer, ids from the room's track counter. -/
def add_publisher (src_peer sink_peer : SPeer) (tracks_count : Nat)
    (audio video : PublishPolicy) : SPeer × SPeer × Nat :=
  let a :=
    if audio ≠ .Disabled then
      let t := MediaTrack.new tracks_count (.Audio audio.isRequired)
      ({ src_peer with senders := ainsert t.id t src_peer.senders },
       { sink_peer with receivers := ainsert t.id t sink_peer.receivers },
       tracks_count + 1)
    else (src_peer, sink_peer, tracks_count)
  if video ≠ .Disabled then
    let dev := MediaTrack.new a.2.2 (.Video video.isRequired .Device)
    let disp := MediaTrack.new (a.2.2 + 1) (.Video false .Display)
    ({ a.1 with
         senders := ainsert disp.id disp (ainsert dev.id dev a.1.senders) },
     { a.2.1 with
         receivers := ainsert disp.id disp (ainsert dev.id dev a.2.1.receivers) },
     a.2.2 + 2)
  else a

/-- `PeerRepository::connect_endpoints` from `src/signalling/peers.rs`.
The `TurnAuthService` is a parameter `turn` keyed by `PeerId`
(`UnreachablePolicy::ReturnErr` semantics: an `Except` result); the
metrics subscription and endpoint back-references have no observable
effect on the repository and are omitted.  Note that in the new-pair
branch the source inserts both peers into the repository _before_
awaiting the TURN requests and does not remove them on failure. -/
def PeerRepository.connect_endpoints (r : PeerRepository)
    (src : WebRtcPublishEndpoint) (sink : WebRtcPlayEndpoint)
    (turn : Nat → Except RoomError Nat) :
    PeerRepository × Except RoomError (Option (Nat × Nat)) :=
  match r.get_peer_by_members_ids src.owner sink.owner with
  | some (src_peer_id, sink_peer_id) =>
    match alookup src_peer_id r.peers, alookup sink_peer_id r.peers with
    | some sp, some kp =>
        let ap :=
          add_publisher sp kp r.tracks_count src.audio_policy src.video_policy
        (((({ r with tracks_count := ap.2.2 }).add_peer ap.1).add_peer ap.2.1),
         .ok none)
    | _, _ => (r, .error (.PeerNotFound src_peer_id))
  | none =>
    let src_peer_id := r.peers_count
    let sink_peer_id := r.peers_count + 1
    let sp := SPeer.new src_peer_id src.owner sink_peer_id sink.owner
      src.force_relayed
    let kp := SPeer.new sink_peer_id sink.owner src_peer_id src.owner
      sink.force_relayed
    let ap :=
      add_publisher sp kp r.tracks_count src.audio_policy src.video_policy
    let r1 :=
      (({ r with peers_count := r.peers_count + 2, tracks_count := ap.2.2
        }).add_peer ap.1).add_peer ap.2.1
    match turn src_peer_id, turn sink_peer_id with
    | .ok src_ice, .ok sink_ice =>
      match alookup src_peer_id r1.peers with
      | none => (r1, .error (.PeerNotFound src_peer_id))
      | some p1 =>
        let r2 := { r1 with
          peers := ainsert src_peer_id { p1 with ice_user := some src_ice }
            r1.peers }
        match alookup sink_peer_id r2.peers with
        | none => (r2, .error (.PeerNotFound sink_peer_id))
        | some p2 =>
          ({ r2 with
             peers := ainsert sink_peer_id { p2 with ice_user := some sink_ice }
               r2.peers },
           .ok (some (src_peer_id, sink_peer_id)))
    | .error e, _ => (r1, .error e)
    | _, .error e => (r1, .error e)

/-- `removed_peers.entry(k).or_insert_with(Vec::new).push(v)` from
`PeerRepository::remove_peers`. -/
def pushEntry (m : List (String × List Nat)) (k : String) (v : Nat) :
    List (String × List Nat) :=
  match m with
  | [] => [(k, [v])]
  | (k', vs) :: rest =>
      if k' = k then (k', vs ++ [v]) :: rest else (k', vs) :: pushEntry rest k v

/-- The loop of `PeerRepository::remove_peers`: removes each listed peer
that is present and, if still present, its partner; records the partner
under the partner's member id and the listed peer under the passed
`member_id`. -/
def removePeersGo (member_id : String) :
    PeerRepository → List Nat → List (String × List Nat) →
    PeerRepository × List (String × List Nat)
  | repo, [], acc => (repo, acc)
  | repo, pid :: rest, acc =>
    match alookup pid repo.peers with
    | none => removePeersGo member_id repo rest acc
    | some peer =>
      let repo1 := { repo with peers := aerase pid repo.peers }
      let step :=
        if (alookup peer.partner_peer repo1.peers).isSome then
          ({ repo1 with peers := aerase peer.partner_peer repo1.peers },
           pushEntry acc peer.partner_member peer.partner_peer)
        else (repo1, acc)
      removePeersGo member_id step.1 rest (pushEntry step.2 member_id pid)

/-- `PeerRepository::remove_peers` from `src/signalling/peers.rs`
(the `HashSet` of peer ids is determinized to a list). -/
def PeerRepository.remove_peers (r : PeerRepository) (member_id : String)
    (peer_ids : List Nat) : PeerRepository × List (String × List Nat) :=
  removePeersGo member_id r peer_ids []

/-- Partner pointers of a repository are mutually consistent (spec global
invariant 1 plus member agreement): the hypothesis under which
`remove_peers`'s partner cleanup is total. -/
def PairConsistent (r : PeerRepository) : Prop :=
  ∀ pid peer, alookup pid r.peers = some peer →
    ∃ q, alookup peer.partner_peer r.peers = some q ∧
      q.partner_peer = pid ∧ q.member_id = peer.partner_member ∧
      q.partner_member = peer.member_id

/-! ## Member connections
(`src/signalling/participants.rs` / `src/signalling/members_manager.rs`) -/

/-- Actions `connection_established` performs besides mutating the maps:
closing the previous connection (with its handle) or interconnecting the
newly connected member's peers. -/
inductive ConnEvent
  | closed_old (conn : Nat)
  | interconnect_peers (member : String)
  deriving DecidableEq, Repr

/-- The connection-related state of `ParticipantService` /
`MembersManager`: live connections per member (handles as `Nat`) and the
members with a pending drop-grace task. -/
structure MembersState where
  connections : List (String × Nat)
  drop_connection_tasks : List String
  deriving DecidableEq, Repr

/-- `connection_established` from `src/signalling/participants.rs`
(the `MembersManager` variant has the same branch structure): if a
previous connection exists it is removed and closed and a pending
drop-grace task is cancelled — the provided connection `con` is only
inserted in the no-previous-connection branch. -/
def MembersState.connection_established (s : MembersState) (member : String)
    (con : Nat) : MembersState × List ConnEvent :=
  match alookup member s.connections with
  | some old =>
      ({ connections := aerase member s.connections
         drop_connection_tasks := s.drop_connection_tasks.erase member },
       [.closed_old old])
  | none =>
      ({ connections := ainsert member con s.connections
         drop_connection_tasks := s.drop_connection_tasks },
       [.interconnect_peers member])

/-! ## Concrete fixtures used by counterexamples and witnesses -/

/-- A concrete empty-track peer context (ids and members as in the
source's unit tests). -/
def baseCtx : Context :=
  { id := 0, member_id := "alice", partner_peer := 1, partner_member := "bob"
    sdp_offer := none, sdp_answer := none, receivers := [], senders := []
    is_force_relayed := false, is_known_to_remote := false
    pending_track_updates := [], track_changes_queue := [] }

/-- The `TrackPatch(0)` change of spec scenario S3. -/
def tp0 : TrackChange :=
  .TrackPatch { id := 0, enabled_individual := none, enabled_general := none }

/-- A concrete sender track whose send side is disabled. -/
def trackW : MediaTrack :=
  { id := 5, media_type := .Audio true, mid := none
    send_media_exchange := false, recv_media_exchange := true }

/-- A concrete peer context owning `trackW` as a sender. -/
def ctxW : Context :=
  { baseCtx with senders := [(5, trackW)] }

/-- A concrete partner patch disabling track 5. -/
def patchW : TrackPatchEvent :=
  { id := 5, enabled_individual := some false, enabled_general := none }

/-- Flattened ids recorded in a removed-peers map. -/
def groupedIds : List (String × List Nat) → List Nat
  | [] => []
  | (_, vs) :: rest => vs ++ groupedIds rest

/-- A concrete peer owned by alice, partnered with `pB`. -/
def pA : SPeer :=
  { id := 0, member_id := "alice", partner_peer := 1, partner_member := "bob"
    is_force_relayed := false, ice_user := none, senders := [], receivers := [] }

/-- A concrete peer owned by bob, partnered with `pA`. -/
def pB : SPeer :=
  { id := 1, member_id := "bob", partner_peer := 0, partner_member := "alice"
    is_force_relayed := false, ice_user := none, senders := [], receivers := [] }

/-- A concrete two-peer repository holding one consistent pair. -/
def repoW : PeerRepository :=
  { peers := [(0, pA), (1, pB)], peers_count := 2, tracks_count := 0 }

/-- An empty concrete peer repository. -/
def repo0 : PeerRepository :=
  { peers := [], peers_count := 0, tracks_count := 0 }

/-- A concrete audio-only publish endpoint owned by alice. -/
def srcEp : WebRtcPublishEndpoint :=
  { owner := "alice", audio_policy := .Required, video_policy := .Disabled
    force_relayed := false }

/-- A concrete play endpoint owned by bob. -/
def sinkEp : WebRtcPlayEndpoint :=
  { owner := "bob", force_relayed := false }

/-- A TURN service that fails for the second peer of a fresh pair. -/
def turnFail (peer_id : Nat) : Except RoomError Nat :=
  if peer_id = 1 then .error (.TurnServiceFailed "down") else .ok 7

/-- A concrete peer with one scheduled (force-applicable) track patch. -/
def ctxF : Context :=
  { baseCtx with
      track_changes_queue :=
        [.TrackPatch { id := 0, enabled_individual := some false
                       enabled_general := none }] }

/-! ## Association-list lemmas -/

theorem alookup_cons {κ α : Type} [DecidableEq κ] (k k' : κ) (v : α)
    (rest : List (κ × α)) :
    alookup k ((k', v) :: rest) = if k' = k then some v else alookup k rest :=
  rfl

theorem alookup_aerase_self {κ α : Type} [DecidableEq κ] (k : κ)
    (l : List (κ × α)) : alookup k (aerase k l) = none := by
  induction l with
  | nil => rfl
  | cons hd tl ih =>
    obtain ⟨k', v⟩ := hd
    by_cases h : k' = k <;> simp [aerase, alookup, h, ih]

theorem alookup_aerase_ne {κ α : Type} [DecidableEq κ] {k k' : κ}
    (l : List (κ × α)) (h : k ≠ k') :
    alookup k (aerase k' l) = alookup k l := by
  induction l with
  | nil => rfl
  | cons hd tl ih =>
    obtain ⟨k'', v⟩ := hd
    simp only [aerase]
    by_cases h2 : k'' = k'
    · rw [if_pos h2, ih, alookup_cons, if_neg fun hk : k'' = k => h (hk ▸ h2)]
    · rw [if_neg h2]
      simp [alookup_cons, ih]

theorem alookup_ainsert_self {κ α : Type} [DecidableEq κ] (k : κ) (v : α)
    (l : List (κ × α)) : alookup k (ainsert k v l) = some v := by
  induction l with
  | nil => simp [ainsert, alookup]
  | cons hd tl ih =>
    obtain ⟨k', v'⟩ := hd
    by_cases h : k' = k <;> simp [ainsert, alookup, h, ih]

theorem alookup_ainsert_ne {κ α : Type} [DecidableEq κ] {k k' : κ} (v : α)
    (l : List (κ × α)) (h : k ≠ k') :
    alookup k (ainsert k' v l) = alookup k l := by
  induction l with
  | nil =>
    simp only [ainsert, alookup]
    rw [if_neg fun hk : k' = k => h hk.symm]
  | cons hd tl ih =>
    obtain ⟨k'', v'⟩ := hd
    simp only [ainsert]
    by_cases h2 : k'' = k'
    · rw [if_pos h2, alookup_cons, alookup_cons,
        if_neg fun hk : k' = k => h hk.symm, if_neg fun hk : k'' = k => h (hk ▸ h2)]
    · rw [if_neg h2]
      simp [alookup_cons, ih]

/-! ## Frame lemmas for the peer operations -/

/-- Dispatching a single change only rewrites `senders`/`receivers`. -/
theorem applyTrackChange_shape (c : Context) (ch : TrackChange) :
    ∃ s r, (c.applyTrackChange ch).1 =
      { c with senders := s, receivers := r } := by
  cases ch <;>
    simp only [Context.applyTrackChange, Context.on_track_patch,
      Context.on_partner_track_patch] <;>
    repeat' split
  all_goals exact ⟨_, _, rfl⟩

/-- The record a dispatch returns for a force-applicable change is always
a `TrackPatch`. -/
theorem applyTrackChange_forcible (c : Context) (ch : TrackChange)
    (h : ch.can_force_apply = true) :
    ∃ p, (c.applyTrackChange ch).2 = .TrackPatch p := by
  cases ch <;> simp_all [TrackChange.can_force_apply] <;>
    simp only [Context.applyTrackChange, Context.on_track_patch,
      Context.on_partner_track_patch] <;>
    repeat' split
  all_goals exact ⟨_, rfl⟩

/-- The application loop only rewrites `senders`/`receivers` and appends
the dispatched records (in dispatch order) to `pending_track_updates`. -/
theorem applyChanges_spec (l : List TrackChange) : ∀ c : Context,
    ∃ s r, Context.applyChanges c l =
      { c with
          senders := s
          receivers := r
          pending_track_updates :=
            c.pending_track_updates ++ changeRecords c l } := by
  induction l with
  | nil =>
    intro c
    exact ⟨c.senders, c.receivers, by
      simp [Context.applyChanges, changeRecords]⟩
  | cons ch rest ih =>
    intro c
    obtain ⟨s1, r1, hshape⟩ := applyTrackChange_shape c ch
    simp only [Context.applyChanges, changeRecords]
    obtain ⟨s2, r2, hrest⟩ := ih
      { (c.applyTrackChange ch).1 with
          pending_track_updates :=
            (c.applyTrackChange ch).1.pending_track_updates
              ++ [(c.applyTrackChange ch).2] }
    refine ⟨s2, r2, ?_⟩
    rw [hrest, hshape]
    simp

/-- Dedup of pending updates only rewrites `pending_track_updates`. -/
theorem dedup_pending_shape (c : Context) :
    ∃ P, c.dedup_pending_track_updates =
      { c with pending_track_updates := P } :=
  ⟨_, rfl⟩

/-- `Peer<Stable>::commit_scheduled_changes` with a non-empty queue:
drains the queue, applies the changes, dedups, and signals
`negotiation_needed`. -/
theorem commit_spec (c : Context) (h : c.track_changes_queue ≠ []) :
    c.commit_scheduled_changes =
      ((Context.applyChanges { c with track_changes_queue := [] }
          c.track_changes_queue).dedup_pending_track_updates,
       [.negotiation_needed c.id]) := by
  unfold Context.commit_scheduled_changes
  rw [if_neg]
  simp [List.isEmpty_iff, h]

/-- `Peer<Stable>::commit_scheduled_changes` with an empty queue is a
no-op and emits nothing. -/
theorem commit_nil (c : Context) (h : c.track_changes_queue = []) :
    c.commit_scheduled_changes = (c, []) := by
  unfold Context.commit_scheduled_changes
  rw [if_pos]
  simp [List.isEmpty_iff, h]

/-- A commit leaves `is_known_to_remote` untouched and always ends with an
empty scheduled-changes queue. -/
theorem commit_known_queue (c : Context) :
    (c.commit_scheduled_changes).1.is_known_to_remote = c.is_known_to_remote ∧
    (c.commit_scheduled_changes).1.track_changes_queue = [] := by
  by_cases h : c.track_changes_queue = []
  · rw [commit_nil c h]
    exact ⟨rfl, h⟩
  · rw [commit_spec c h]
    obtain ⟨P, hD⟩ := dedup_pending_shape
      (Context.applyChanges { c with track_changes_queue := [] }
        c.track_changes_queue)
    rw [hD]
    obtain ⟨s, r, hA⟩ := applyChanges_spec c.track_changes_queue
      { c with track_changes_queue := [] }
    rw [hA]
    exact ⟨rfl, rfl⟩

/-- Facts about `negotiation_finished`: it marks the peer as known to
remote, drains the queue, and leaves the pending updates empty exactly
when nothing had been queued during the wait. -/
theorem negotiation_finished_spec (c : Context) :
    (c.negotiation_finished).1.is_known_to_remote = true ∧
    (c.negotiation_finished).1.track_changes_queue = [] ∧
    (c.track_changes_queue = [] →
      (c.negotiation_finished).1.pending_track_updates = []) := by
  unfold Context.negotiation_finished
  refine ⟨?_, ?_, ?_⟩
  · have h := (commit_known_queue
      { c with is_known_to_remote := true, pending_track_updates := [] }).1
    simpa using h
  · exact (commit_known_queue
      { c with is_known_to_remote := true, pending_track_updates := [] }).2
  · intro hq
    rw [commit_nil _ (by simpa using hq)]

/-! ## Claim C1 -/

/-- C1 (counterexample): the claim asserts `pending_track_updates` is
empty immediately after every transition into `Stable` that completes
negotiation; for a `WaitRemoteSdp` peer with one queued `IceRestart`,
`set_remote_answer` refills `pending_track_updates` from the drained
queue, so it is not empty (this matches the source's own test
`scheduled_changes_will_be_ran_on_stable`). -/
theorem C1_counterexample :
    ¬ ((Context.set_remote_answer
          { baseCtx with track_changes_queue := [TrackChange.IceRestart] }
          "sdp").1.ctx.pending_track_updates = []) := by
  decide

/-! ## Claim C10 -/

/-- C10: subscriber callbacks fire only with content: a commit on a
`Stable` peer with an empty queue changes nothing and emits nothing, and
`inner_force_commit_scheduled_changes` never emits a `force_update` with
an empty update list. -/
theorem C10_subscriber_quiescence :
    (∀ p : PeerSM, p.state = PeerState.Stable →
      p.ctx.track_changes_queue = [] →
      p.commit_scheduled_changes = (p, [], true)) ∧
    (∀ (c : Context) (pid : Nat) (us : List TrackUpdate),
      PeerEvent.force_update pid us ∈
        (c.inner_force_commit_scheduled_changes).2 → us ≠ []) := by
  constructor
  · intro p hs hq
    obtain ⟨st, ctx⟩ := p
    cases hs
    unfold PeerSM.commit_scheduled_changes
    simp [commit_nil ctx hq]
  · intro c pid us h
    simp only [Context.inner_force_commit_scheduled_changes] at h
    split at h
    · simp at h
    · next hne =>
      simp only [List.mem_singleton, PeerEvent.force_update.injEq] at h
      obtain ⟨-, h2⟩ := h
      subst h2
      intro habs
      rw [habs] at hne
      simp at hne

/-- C10 (witness): the quiescence theorem applied to concrete peers: the
base peer is `Stable` with an empty queue, and the force-update event
that `ctxF` emits carries a non-empty update list. -/
theorem C10_witness :
    (PeerSM.commit_scheduled_changes { state := .Stable, ctx := baseCtx }
      = ({ state := .Stable, ctx := baseCtx }, [], true)) ∧
    [TrackUpdate.Updated
      { id := 0, enabled_individual := some false
        enabled_general := none }] ≠ [] :=
  ⟨C10_subscriber_quiescence.1 { state := .Stable, ctx := baseCtx } rfl rfl,
   C10_subscriber_quiescence.2 ctxF 0 _ (by decide)⟩

/-! ## Claim C9 -/

/-- C9 (code bug): with a live connection registered for member `m` and
no pending drop-grace task, `connection_established` removes and closes
the old connection but never registers the provided new connection — the
member ends with no connection at all, contradicting the claim (and the
function's own doc comment "Stores provided RpcConnection for given
Member ... If Member already has any other RpcConnection, then it will be
closed"). -/
theorem C9_connection_established_drops_new :
    MembersState.connection_established
        { connections := [("m", 1)], drop_connection_tasks := [] } "m" 2 =
      ({ connections := [], drop_connection_tasks := [] },
       [ConnEvent.closed_old 1]) := by
  decide

/-! ## Claim C6 -/

/-- C6: applying a `PartnerTrackPatch` whose `enabled_individual` is
present (and whose `enabled_general` starts absent, as every patch built
from a `TrackPatchCommand` does) mutates nothing, and produces a record
whose `enabled_individual` is absent and whose `enabled_general` is the
shared track's media-exchange state exactly when the provided individual
state equals it, and absent otherwise (also absent when no track with
that id exists). -/
theorem C6_partner_track_patch (c : Context) (patch : TrackPatchEvent)
    (e : Bool) (hi : patch.enabled_individual = some e)
    (hg : patch.enabled_general = none) :
    (c.on_partner_track_patch patch).1 = c ∧
    ∃ q, (c.on_partner_track_patch patch).2 = TrackChange.TrackPatch q ∧
      q.id = patch.id ∧ q.enabled_individual = none ∧
      (∀ t, (alookup patch.id c.senders).orElse
          (fun _ => alookup patch.id c.receivers) = some t →
        (e = t.is_media_exchange_enabled →
          q.enabled_general = some t.is_media_exchange_enabled) ∧
        (e ≠ t.is_media_exchange_enabled → q.enabled_general = none)) ∧
      ((alookup patch.id c.senders).orElse
          (fun _ => alookup patch.id c.receivers) = none →
        q.enabled_general = none) := by
  obtain ⟨pid, pi, pg⟩ := patch
  replace hi : pi = some e := hi
  replace hg : pg = none := hg
  subst hi
  subst hg
  simp only [Context.on_partner_track_patch]
  split
  next track heq =>
    by_cases he : e = track.is_media_exchange_enabled
    · rw [if_pos he]
      refine ⟨rfl, _, rfl, rfl, rfl, ?_, ?_⟩
      · intro t' ht'
        rw [heq] at ht'
        obtain rfl : track = t' := by simpa using ht'
        exact ⟨fun _ => rfl, fun hne => absurd he hne⟩
      · intro hnone
        rw [heq] at hnone
        simp at hnone
    · rw [if_neg he]
      refine ⟨rfl, _, rfl, rfl, rfl, ?_, fun _ => rfl⟩
      intro t' ht'
      rw [heq] at ht'
      obtain rfl : track = t' := by simpa using ht'
      exact ⟨fun habs => absurd habs he, fun _ => rfl⟩
  next heq =>
    refine ⟨rfl, _, rfl, rfl, rfl, ?_, fun _ => rfl⟩
    intro t ht
    rw [heq] at ht
    simp at ht

/-- C6 (witness): the theorem applied to the concrete peer `ctxW`
(owning sender track 5 with a disabled send side) and partner patch
`patchW`. -/
theorem C6_witness :
    (Context.on_partner_track_patch ctxW patchW).1 = ctxW ∧
    ∃ q, (Context.on_partner_track_patch ctxW patchW).2 =
        TrackChange.TrackPatch q ∧
      q.id = patchW.id ∧ q.enabled_individual = none ∧
      (∀ t, (alookup patchW.id ctxW.senders).orElse
          (fun _ => alookup patchW.id ctxW.receivers) = some t →
        (false = t.is_media_exchange_enabled →
          q.enabled_general = some t.is_media_exchange_enabled) ∧
        (false ≠ t.is_media_exchange_enabled → q.enabled_general = none)) ∧
      ((alookup patchW.id ctxW.senders).orElse
          (fun _ => alookup patchW.id ctxW.receivers) = none →
        q.enabled_general = none) :=
  C6_partner_track_patch ctxW patchW false rfl rfl

/-! ## IceRestart dedup lemmas (claim C5) -/

theorem filterIce_filterNot (l : List TrackChange) :
    (l.filter fun c => !(isIceRestart c)).filter isIceRestart = [] := by
  induction l with
  | nil => rfl
  | cons c rest ih => cases hc : isIceRestart c <;> simp [List.filter_cons, hc, ih]

/-- Past the kept index, the retain loop keeps exactly the
non-`IceRestart` entries. -/
theorem retainIceAt_gt (k : Nat) (l : List TrackChange) :
    ∀ i : Nat, k < i →
      retainIceAt k i l = l.filter fun c => !(isIceRestart c) := by
  induction l with
  | nil => intro i _; rfl
  | cons c rest ih =>
    intro i h
    have hik : ¬ (i = k) := by omega
    cases hc : isIceRestart c <;>
      simp [retainIceAt, hik, hc, ih (i + 1) (by omega), List.filter_cons]

/-- The retained list contains an `IceRestart` exactly when the entry at
the kept index is one (and then exactly one survives). -/
theorem countIce_retain (k : Nat) (l : List TrackChange) :
    ∀ i : Nat, i ≤ k →
      countIce (retainIceAt k i l) =
        if ((l.get? (k - i)).any isIceRestart) = true then 1 else 0 := by
  induction l with
  | nil =>
    intro i _
    simp [retainIceAt, countIce]
  | cons c rest ih =>
    intro i hik
    by_cases hke : i = k
    · subst hke
      rw [show retainIceAt i i (c :: rest)
            = c :: retainIceAt i (i + 1) rest from by simp [retainIceAt]]
      rw [retainIceAt_gt i rest (i + 1) (by omega)]
      cases hc : isIceRestart c <;>
        simp [countIce, List.filter_cons, hc, filterIce_filterNot,
          Nat.sub_self]
    · obtain ⟨d, rfl⟩ : ∃ d, k = i + (d + 1) := ⟨k - i - 1, by omega⟩
      have hsub1 : i + (d + 1) - i = d + 1 := by omega
      have hsub2 : i + (d + 1) - (i + 1) = d := by omega
      cases hc : isIceRestart c
      · rw [show retainIceAt (i + (d + 1)) i (c :: rest)
              = c :: retainIceAt (i + (d + 1)) (i + 1) rest from by
            simp [retainIceAt, hc]]
        have hcnt : countIce (c :: retainIceAt (i + (d + 1)) (i + 1) rest)
            = countIce (retainIceAt (i + (d + 1)) (i + 1) rest) := by
          simp [countIce, List.filter_cons, hc]
        rw [hcnt, ih (i + 1) (by omega), hsub1, hsub2, List.get?_cons_succ]
      · rw [show retainIceAt (i + (d + 1)) i (c :: rest)
              = retainIceAt (i + (d + 1)) (i + 1) rest from by
            simp [retainIceAt, hc, hke]]
        rw [ih (i + 1) (by omega), hsub1, hsub2, List.get?_cons_succ]

theorem findIdxGo_none {α : Type} (p : α → Bool) :
    ∀ (l : List α) (s : Nat), l.findIdx? p s = none →
      ∀ a, a ∈ l → p a = false := by
  intro l
  induction l with
  | nil => intro s _ a ha; cases ha
  | cons x xs ih =>
    intro s h a ha
    rw [List.findIdx?_cons] at h
    by_cases hp : p x = true
    · rw [if_pos hp] at h; cases h
    · rw [if_neg hp] at h
      rcases List.mem_cons.mp ha with rfl | hmem
      · exact Bool.eq_false_iff.mpr hp
      · exact ih (s + 1) h a hmem

theorem findIdxGo_some {α : Type} (p : α → Bool) :
    ∀ (l : List α) (s i : Nat), l.findIdx? p s = some i →
      s ≤ i ∧ i - s < l.length ∧
        ∃ a, l.get? (i - s) = some a ∧ p a = true := by
  intro l
  induction l with
  | nil => intro s i h; cases h
  | cons x xs ih =>
    intro s i h
    rw [List.findIdx?_cons] at h
    by_cases hp : p x = true
    · rw [if_pos hp] at h
      cases h
      exact ⟨Nat.le_refl _, by simp, x, by simp, hp⟩
    · rw [if_neg hp] at h
      obtain ⟨h1, h2, a, h3, h4⟩ := ih (s + 1) i h
      refine ⟨by omega, by simp; omega, a, ?_, h4⟩
      rw [show i - s = (i - (s + 1)) + 1 from by omega, List.get?_cons_succ]
      exact h3

/-- Deduping `IceRestart`s keeps at most one, and keeps exactly one when
any was present. -/
theorem dedupIce_count (l : List TrackChange) :
    countIce (dedupIceRestartsList l) ≤ 1 ∧
    (0 < countIce l → countIce (dedupIceRestartsList l) = 1) := by
  unfold dedupIceRestartsList lastIceRestartIdx
  cases hf : l.reverse.findIdx? isIceRestart with
  | none =>
    have hz : countIce l = 0 := by
      have hall := findIdxGo_none isIceRestart l.reverse 0 hf
      have hfil : l.filter isIceRestart = [] := by
        apply List.filter_eq_nil_iff.mpr
        intro a ha
        simp [hall a (List.mem_reverse.mpr ha)]
      simp [countIce, hfil]
    simp [hz]
  | some i =>
    obtain ⟨-, hlen, a, hget, hp⟩ :=
      findIdxGo_some isIceRestart l.reverse 0 i hf
    rw [Nat.sub_zero] at hlen hget
    rw [List.length_reverse] at hlen
    have hrev := List.get?_reverse (l := l) hlen
    rw [hrev] at hget
    have hcnt := countIce_retain (l.length - 1 - i) l 0 (Nat.zero_le _)
    rw [Nat.sub_zero, hget] at hcnt
    simp only [Option.map_some']
    constructor
    · rw [hcnt]
      simp [hp]
    · intro _
      rw [hcnt]
      simp [hp]

/-! ## Claim C5 -/

/-- C5 (counterexample): on the queue
`IceRestart, IceRestart, TrackPatch(0), IceRestart, TrackPatch(0)` the
claim asserts the surviving sequence is the merged `TrackPatch(0)`
followed by `IceRestart`; the code instead retains the `IceRestart` and
appends the merged patch after it. -/
theorem C5_counterexample :
    ¬ ((Context.dedup_pending_track_updates
          { baseCtx with pending_track_updates :=
              [.IceRestart, .IceRestart, tp0, .IceRestart, tp0] }
        ).pending_track_updates = [tp0, TrackChange.IceRestart]) := by
  decide

/-- C5 (amended): dedup of `pending_track_updates` collapses all
`IceRestart` entries to exactly one, surviving from the last occurrence;
on the concrete queue
`IceRestart, IceRestart, TrackPatch(0), IceRestart, TrackPatch(0)` the
surviving sequence is the single retained `IceRestart` followed by the
merged `TrackPatch(0)` (merged patches are appended after the retained
entries). -/
theorem C5_ice_restart_dedup :
    (∀ l : List TrackChange,
      countIce (dedupIceRestartsList l) ≤ 1 ∧
      (0 < countIce l → countIce (dedupIceRestartsList l) = 1)) ∧
    ((Context.dedup_pending_track_updates
        { baseCtx with pending_track_updates :=
            [.IceRestart, .IceRestart, tp0, .IceRestart, tp0] }
      ).pending_track_updates = [TrackChange.IceRestart, tp0]) :=
  ⟨dedupIce_count, by decide⟩

/-- C5 (witness): the amended theorem applied to a concrete list with
`IceRestart`s present. -/
theorem C5_witness :
    countIce (dedupIceRestartsList
      [tp0, TrackChange.IceRestart, TrackChange.IceRestart]) = 1 :=
  (C5_ice_restart_dedup.1
    [tp0, TrackChange.IceRestart, TrackChange.IceRestart]).2 (by decide)

/-! ## Claim C2 -/

/-- C2: `commit_scheduled_changes` on a non-`Stable` peer is a no-op that
emits nothing; on a `Stable` peer with scheduled changes it drains the
queue, applies each change in order (the records collected by
`changeRecords` are appended to `pending_track_updates`), deduplicates
the pending updates and calls `negotiation_needed` with the peer's id;
and scheduling a change never alters the observable state
(`get_updates`, pending updates, senders, receivers). -/
theorem C2_commit_scheduled_changes :
    (∀ p : PeerSM, p.state ≠ PeerState.Stable →
      p.commit_scheduled_changes = (p, [], false)) ∧
    (∀ c : Context, c.track_changes_queue ≠ [] →
      c.commit_scheduled_changes =
        ((Context.applyChanges { c with track_changes_queue := [] }
            c.track_changes_queue).dedup_pending_track_updates,
         [.negotiation_needed c.id]) ∧
      (Context.applyChanges { c with track_changes_queue := [] }
          c.track_changes_queue).pending_track_updates =
        c.pending_track_updates ++
          changeRecords { c with track_changes_queue := [] }
            c.track_changes_queue) ∧
    (∀ (c : Context) (ch : TrackChange),
      (c.schedule_change ch).get_updates = c.get_updates ∧
      (c.schedule_change ch).pending_track_updates =
        c.pending_track_updates ∧
      (c.schedule_change ch).senders = c.senders ∧
      (c.schedule_change ch).receivers = c.receivers) := by
  refine ⟨?_, ?_, ?_⟩
  · intro p hs
    obtain ⟨st, ctx⟩ := p
    cases st with
    | Stable => exact absurd rfl hs
    | WaitLocalSdp => rfl
    | WaitRemoteSdp => rfl
  · intro c hq
    refine ⟨commit_spec c hq, ?_⟩
    obtain ⟨s, r, hA⟩ := applyChanges_spec c.track_changes_queue
      { c with track_changes_queue := [] }
    rw [hA]
  · intro c ch
    exact ⟨rfl, rfl, rfl, rfl⟩

/-- C2 (witness): the theorem applied to the concrete peer `ctxF` (one
scheduled patch), both as a non-`Stable` state machine (no-op) and as a
`Stable` context (drain, dedup, `negotiation_needed`). -/
theorem C2_witness :
    (PeerSM.commit_scheduled_changes { state := .WaitLocalSdp, ctx := ctxF }
      = ({ state := .WaitLocalSdp, ctx := ctxF }, [], false)) ∧
    (Context.commit_scheduled_changes ctxF =
      ((Context.applyChanges { ctxF with track_changes_queue := [] }
          ctxF.track_changes_queue).dedup_pending_track_updates,
       [.negotiation_needed ctxF.id])) :=
  ⟨C2_commit_scheduled_changes.1 { state := .WaitLocalSdp, ctx := ctxF }
    (by decide),
   (C2_commit_scheduled_changes.2.1 ctxF (by decide)).1⟩

/-! ## Deduper lemmas (claims C3 and C4) -/

/-- The retained changes of a drain-merge are exactly those its predicate
does not drain. -/
theorem drainMergeGo_retained (w : Option (List Nat)) :
    ∀ (l : List TrackChange) (r : List (Nat × TrackPatchEvent)),
      (drainMergeGo w r l).2 =
        l.filter fun ch => (drainedPatch w ch).isNone := by
  intro l
  induction l with
  | nil => intro r; rfl
  | cons c rest ih =>
    intro r
    cases hd : drainedPatch w c with
    | some p => simp [drainMergeGo, hd, ih, List.filter_cons]
    | none => simp [drainMergeGo, hd, ih, List.filter_cons]

theorem alookup_mergeInto_self (r : List (Nat × TrackPatchEvent))
    (p : TrackPatchEvent) :
    alookup p.id (mergeInto r p) = some
      (match alookup p.id r with
       | some v => v.merge p
       | none => (TrackPatchEvent.new p.id).merge p) := by
  induction r with
  | nil => simp [mergeInto, alookup]
  | cons kv rest ih =>
    obtain ⟨k, v⟩ := kv
    by_cases hk : k = p.id <;> simp [mergeInto, alookup, hk, ih]

theorem alookup_mergeInto_ne (r : List (Nat × TrackPatchEvent))
    (p : TrackPatchEvent) (i : Nat) (h : i ≠ p.id) :
    alookup i (mergeInto r p) = alookup i r := by
  induction r with
  | nil =>
    simp only [mergeInto, alookup]
    rw [if_neg fun hk : p.id = i => h hk.symm]
  | cons kv rest ih =>
    obtain ⟨k, v⟩ := kv
    by_cases hk : k = p.id
    · subst hk
      simp only [mergeInto, if_pos rfl, alookup]
      rw [if_neg fun hk2 : p.id = i => h hk2.symm,
        if_neg fun hk2 : p.id = i => h hk2.symm]
    · rw [show mergeInto ((k, v) :: rest) p = (k, v) :: mergeInto rest p
          from by simp [mergeInto, hk]]
      by_cases hi : k = i <;> simp [alookup, hi, ih]

theorem akeys_mergeInto (r : List (Nat × TrackPatchEvent))
    (p : TrackPatchEvent) :
    akeys (mergeInto r p) =
      if p.id ∈ akeys r then akeys r else akeys r ++ [p.id] := by
  induction r with
  | nil => simp [mergeInto, akeys]
  | cons kv rest ih =>
    obtain ⟨k, v⟩ := kv
    by_cases hk : k = p.id
    · subst hk
      simp [mergeInto, akeys]
    · rw [show mergeInto ((k, v) :: rest) p = (k, v) :: mergeInto rest p
          from by simp [mergeInto, hk]]
      have hmemiff : p.id ∈ akeys ((k, v) :: rest) ↔ p.id ∈ akeys rest := by
        simp only [akeys, List.map_cons, List.mem_cons]
        constructor
        · rintro (h2 | h2)
          · exact absurd h2.symm hk
          · exact h2
        · exact Or.inr
      by_cases hm : p.id ∈ akeys rest
      · rw [if_pos (hmemiff.mpr hm)]
        simp only [akeys, List.map_cons] at ih ⊢
        rw [ih, if_pos (by simpa [akeys] using hm)]
      · rw [if_neg fun hmm => hm (hmemiff.mp hmm)]
        simp only [akeys, List.map_cons] at ih ⊢
        rw [ih, if_neg (by simpa [akeys] using hm)]
        simp

theorem mem_akeys_mergeInto (r : List (Nat × TrackPatchEvent))
    (p : TrackPatchEvent) (i : Nat) :
    i ∈ akeys (mergeInto r p) ↔ i ∈ akeys r ∨ i = p.id := by
  rw [akeys_mergeInto]
  by_cases hm : p.id ∈ akeys r
  · rw [if_pos hm]
    constructor
    · exact Or.inl
    · rintro (h2 | rfl)
      · exact h2
      · exact hm
  · rw [if_neg hm]
    simp [List.mem_append]

theorem akeys_mergeInto_nodup (r : List (Nat × TrackPatchEvent))
    (p : TrackPatchEvent) (h : (akeys r).Nodup) :
    (akeys (mergeInto r p)).Nodup := by
  rw [akeys_mergeInto]
  by_cases hm : p.id ∈ akeys r
  · rw [if_pos hm]
    exact h
  · rw [if_neg hm]
    refine List.Nodup.append h (List.nodup_singleton _) ?_
    intro a ha hb
    rw [List.mem_singleton] at hb
    subst hb
    exact hm ha

/-- Every value in the deduper's map carries the id it is keyed by. -/
def resultIdsOk (r : List (Nat × TrackPatchEvent)) : Prop :=
  ∀ kv, kv ∈ r → (kv.2).id = kv.1

theorem mergeInto_idsOk (r : List (Nat × TrackPatchEvent))
    (p : TrackPatchEvent) (h : resultIdsOk r) :
    resultIdsOk (mergeInto r p) := by
  induction r with
  | nil =>
    intro kv hkv
    simp only [mergeInto, List.mem_singleton] at hkv
    subst hkv
    rfl
  | cons hd rest ih =>
    obtain ⟨k, v⟩ := hd
    have hhd : v.id = k := h (k, v) (List.mem_cons_self _ _)
    have hrest : resultIdsOk rest := fun kv hkv => h kv (List.mem_cons_of_mem _ hkv)
    intro kv hkv
    by_cases hk : k = p.id
    · rw [mergeInto, if_pos hk] at hkv
      rcases List.mem_cons.mp hkv with rfl | hmem
      · simpa [TrackPatchEvent.merge] using hhd
      · exact hrest kv hmem
    · rw [mergeInto, if_neg hk] at hkv
      rcases List.mem_cons.mp hkv with rfl | hmem
      · exact hhd
      · exact ih hrest kv hmem

theorem drainMergeGo_idsOk (w : Option (List Nat)) :
    ∀ (l : List TrackChange) (r : List (Nat × TrackPatchEvent)),
      resultIdsOk r → resultIdsOk (drainMergeGo w r l).1 := by
  intro l
  induction l with
  | nil => intro r h; exact h
  | cons c rest ih =>
    intro r h
    cases hd : drainedPatch w c with
    | some p =>
      simp only [drainMergeGo, hd]
      exact ih (mergeInto r p) (mergeInto_idsOk r p h)
    | none =>
      simp only [drainMergeGo, hd]
      exact ih r h

theorem drainMergeGo_nodup (w : Option (List Nat)) :
    ∀ (l : List TrackChange) (r : List (Nat × TrackPatchEvent)),
      (akeys r).Nodup → (akeys (drainMergeGo w r l).1).Nodup := by
  intro l
  induction l with
  | nil => intro r h; exact h
  | cons c rest ih =>
    intro r h
    cases hd : drainedPatch w c with
    | some p =>
      simp only [drainMergeGo, hd]
      exact ih (mergeInto r p) (akeys_mergeInto_nodup r p h)
    | none =>
      simp only [drainMergeGo, hd]
      exact ih r h

theorem drainedPatch_eq_some {w : Option (List Nat)} {ch : TrackChange}
    {p : TrackPatchEvent} (h : drainedPatch w ch = some p) :
    ch = TrackChange.TrackPatch p ∧ inWhitelist w p.id = true := by
  cases ch with
  | TrackPatch t =>
    rw [drainedPatch] at h
    by_cases hw : inWhitelist w t.id = true
    · rw [if_pos hw] at h
      cases h
      exact ⟨rfl, hw⟩
    · rw [if_neg hw] at h
      cases h
  | AddSendTrack t => simp [drainedPatch] at h
  | AddRecvTrack t => simp [drainedPatch] at h
  | PartnerTrackPatch t => simp [drainedPatch] at h
  | IceRestart => simp [drainedPatch] at h

theorem drainedPatch_eq_none {w : Option (List Nat)} {ch : TrackChange}
    (h : drainedPatch w ch = none) (p : TrackPatchEvent)
    (hc : ch = TrackChange.TrackPatch p) : inWhitelist w p.id = false := by
  subst hc
  rw [drainedPatch] at h
  by_cases hw : inWhitelist w p.id = true
  · rw [if_pos hw] at h
    cases h
  · simpa using hw

/-- A `TrackId` is in the deduper's map after a drain-merge exactly when
it was already there or a whitelisted `TrackPatch` for it was drained. -/
theorem mem_akeys_drainMergeGo (w : Option (List Nat)) (i : Nat) :
    ∀ (l : List TrackChange) (r : List (Nat × TrackPatchEvent)),
      i ∈ akeys (drainMergeGo w r l).1 ↔
        i ∈ akeys r ∨
          ((∃ p, TrackChange.TrackPatch p ∈ l ∧ p.id = i) ∧
            inWhitelist w i = true) := by
  intro l
  induction l with
  | nil =>
    intro r
    simp [drainMergeGo]
  | cons c rest ih =>
    intro r
    cases hd : drainedPatch w c with
    | some p =>
      obtain ⟨rfl, hwp⟩ := drainedPatch_eq_some hd
      simp only [drainMergeGo, hd]
      rw [ih (mergeInto r p), mem_akeys_mergeInto]
      constructor
      · rintro ((hr | rfl) | ⟨⟨q, hq, rfl⟩, hwq⟩)
        · exact Or.inl hr
        · exact Or.inr ⟨⟨p, List.mem_cons_self _ _, rfl⟩, hwp⟩
        · exact Or.inr ⟨⟨q, List.mem_cons_of_mem _ hq, rfl⟩, hwq⟩
      · rintro (hr | ⟨⟨q, hq, rfl⟩, hwq⟩)
        · exact Or.inl (Or.inl hr)
        · rcases List.mem_cons.mp hq with heq | hq2
          · obtain rfl : q = p := by simpa using heq
            exact Or.inl (Or.inr rfl)
          · exact Or.inr ⟨⟨q, hq2, rfl⟩, hwq⟩
    | none =>
      simp only [drainMergeGo, hd]
      rw [ih r]
      constructor
      · rintro (hr | ⟨⟨q, hq, rfl⟩, hwq⟩)
        · exact Or.inl hr
        · exact Or.inr ⟨⟨q, List.mem_cons_of_mem _ hq, rfl⟩, hwq⟩
      · rintro (hr | ⟨⟨q, hq, rfl⟩, hwq⟩)
        · exact Or.inl hr
        · rcases List.mem_cons.mp hq with heq | hq2
          · exfalso
            have hf := drainedPatch_eq_none hd q heq.symm
            rw [hf] at hwq
            cases hwq
          · exact Or.inr ⟨⟨q, hq2, rfl⟩, hwq⟩

theorem patchesForId_append (l1 l2 : List TrackChange) (i : Nat) :
    patchesForId (l1 ++ l2) i = patchesForId l1 i ++ patchesForId l2 i := by
  simp [patchesForId, List.filterMap_append]

theorem patchesForId_cons_patch (t : TrackPatchEvent)
    (rest : List TrackChange) (i : Nat) :
    patchesForId (TrackChange.TrackPatch t :: rest) i =
      if t.id = i then t :: patchesForId rest i else patchesForId rest i := by
  by_cases h : t.id = i <;> simp [patchesForId, List.filterMap_cons, h]

theorem patchesForId_cons_other (c : TrackChange) (rest : List TrackChange)
    (i : Nat) (h : ∀ p, c ≠ TrackChange.TrackPatch p) :
    patchesForId (c :: rest) i = patchesForId rest i := by
  cases c with
  | TrackPatch t => exact absurd rfl (h t)
  | AddSendTrack t => simp [patchesForId, List.filterMap_cons]
  | AddRecvTrack t => simp [patchesForId, List.filterMap_cons]
  | PartnerTrackPatch t => simp [patchesForId, List.filterMap_cons]
  | IceRestart => simp [patchesForId, List.filterMap_cons]

theorem patchesForId_ne_nil_iff (l : List TrackChange) (i : Nat) :
    patchesForId l i ≠ [] ↔
      ∃ p, TrackChange.TrackPatch p ∈ l ∧ p.id = i := by
  induction l with
  | nil => simp [patchesForId]
  | cons c rest ih =>
    cases c with
    | TrackPatch t =>
      by_cases ht : t.id = i
      · simp only [patchesForId, List.filterMap_cons] at ih ⊢
        rw [if_pos ht]
        constructor
        · intro _
          exact ⟨t, List.mem_cons_self _ _, ht⟩
        · intro _
          simp
      · simp only [patchesForId, List.filterMap_cons] at ih ⊢
        rw [if_neg ht]
        rw [ih]
        constructor
        · rintro ⟨p, hp, rfl⟩
          exact ⟨p, List.mem_cons_of_mem _ hp, rfl⟩
        · rintro ⟨p, hp, rfl⟩
          rcases List.mem_cons.mp hp with heq | hmem
          · obtain rfl : p = t := by simpa using heq
            exact absurd rfl ht
          · exact ⟨p, hmem, rfl⟩
    | AddSendTrack t =>
      simp only [patchesForId, List.filterMap_cons] at ih ⊢
      rw [ih]
      simp
    | AddRecvTrack t =>
      simp only [patchesForId, List.filterMap_cons] at ih ⊢
      rw [ih]
      simp
    | PartnerTrackPatch t =>
      simp only [patchesForId, List.filterMap_cons] at ih ⊢
      rw [ih]
      simp
    | IceRestart =>
      simp only [patchesForId, List.filterMap_cons] at ih ⊢
      rw [ih]
      simp

/-- Value of a drain-merged entry for a whitelisted id: the left-to-right
merge of every drained patch for that id over the previous entry (or the
neutral patch when none existed). -/
theorem alookup_drainMergeGo (w : Option (List Nat)) (i : Nat)
    (hw : inWhitelist w i = true) :
    ∀ (l : List TrackChange) (r : List (Nat × TrackPatchEvent)),
      alookup i (drainMergeGo w r l).1 =
        match alookup i r with
        | some v => some ((patchesForId l i).foldl TrackPatchEvent.merge v)
        | none =>
          if patchesForId l i = [] then none
          else some ((patchesForId l i).foldl TrackPatchEvent.merge
            (TrackPatchEvent.new i)) := by
  intro l
  induction l with
  | nil =>
    intro r
    cases hr : alookup i r <;> simp [drainMergeGo, patchesForId, hr]
  | cons c rest ih =>
    intro r
    cases hd : drainedPatch w c with
    | some p =>
      obtain ⟨rfl, hwp⟩ := drainedPatch_eq_some hd
      simp only [drainMergeGo, hd]
      rw [ih (mergeInto r p)]
      by_cases hip : i = p.id
      · subst hip
        rw [alookup_mergeInto_self]
        have hpatches : patchesForId (TrackChange.TrackPatch p :: rest) p.id
            = p :: patchesForId rest p.id := by
          rw [patchesForId_cons_patch, if_pos rfl]
        cases hr : alookup p.id r
        · simp [hr, hpatches, List.foldl_cons]
        · simp [hr, hpatches, List.foldl_cons]
      · rw [alookup_mergeInto_ne r p i hip]
        rw [patchesForId_cons_patch, if_neg fun h2 : p.id = i => hip h2.symm]
    | none =>
      simp only [drainMergeGo, hd]
      rw [ih r]
      have hpatches : patchesForId (c :: rest) i = patchesForId rest i := by
        cases c with
        | TrackPatch t =>
          have hne : t.id ≠ i := by
            intro he
            have hf := drainedPatch_eq_none hd t rfl
            rw [he] at hf
            rw [hf] at hw
            cases hw
          rw [patchesForId_cons_patch, if_neg hne]
        | AddSendTrack t =>
          exact patchesForId_cons_other _ _ _ (by intro p h2; cases h2)
        | AddRecvTrack t =>
          exact patchesForId_cons_other _ _ _ (by intro p h2; cases h2)
        | PartnerTrackPatch t =>
          exact patchesForId_cons_other _ _ _ (by intro p h2; cases h2)
        | IceRestart =>
          exact patchesForId_cons_other _ _ _ (by intro p h2; cases h2)
      rw [hpatches]

/-- Entries outside the whitelist are untouched by a drain-merge. -/
theorem alookup_drainMergeGo_notWl (w : Option (List Nat)) (i : Nat)
    (hw : inWhitelist w i = false) :
    ∀ (l : List TrackChange) (r : List (Nat × TrackPatchEvent)),
      alookup i (drainMergeGo w r l).1 = alookup i r := by
  intro l
  induction l with
  | nil => intro r; rfl
  | cons c rest ih =>
    intro r
    cases hd : drainedPatch w c with
    | some p =>
      obtain ⟨rfl, hwp⟩ := drainedPatch_eq_some hd
      have hip : i ≠ p.id := by
        intro he
        rw [he, hwp] at hw
        cases hw
      simp only [drainMergeGo, hd]
      rw [ih (mergeInto r p), alookup_mergeInto_ne r p i hip]
    | none =>
      simp only [drainMergeGo, hd]
      exact ih r

/-- The patches a deduper's `into_inner` yields for an id: with
well-formed entries and key-unique keys, at most one, present exactly
when the id is in the map, and equal to the looked-up value. -/
theorem into_patches_spec (i : Nat) :
    ∀ r : List (Nat × TrackPatchEvent), resultIdsOk r → (akeys r).Nodup →
      (patchesForId (r.map fun kv => TrackChange.TrackPatch kv.2) i).length
          ≤ 1 ∧
      (patchesForId (r.map fun kv => TrackChange.TrackPatch kv.2) i ≠ []
          ↔ i ∈ akeys r) ∧
      (∀ p, p ∈ patchesForId (r.map fun kv => TrackChange.TrackPatch kv.2) i
          → alookup i r = some p) := by
  intro r
  induction r with
  | nil => simp [patchesForId, akeys, alookup]
  | cons kv rest ih =>
    intro hids hnd
    obtain ⟨k, v⟩ := kv
    have hvk : v.id = k := hids (k, v) (List.mem_cons_self _ _)
    have hidr : resultIdsOk rest := fun kv2 h2 =>
      hids kv2 (List.mem_cons_of_mem _ h2)
    simp only [akeys, List.map_cons, List.nodup_cons] at hnd
    obtain ⟨hknotin, hndr⟩ := hnd
    obtain ⟨ha, hb, hc⟩ := ih hidr hndr
    by_cases hki : k = i
    · subst hki
      have hrestnil :
          patchesForId (rest.map fun kv => TrackChange.TrackPatch kv.2) k
            = [] := by
        by_contra hne
        exact hknotin (by simpa [akeys] using hb.mp hne)
      have hcons :
          patchesForId
            (((k, v) :: rest).map fun kv => TrackChange.TrackPatch kv.2) k
          = [v] := by
        rw [List.map_cons, patchesForId_cons_patch, if_pos hvk, hrestnil]
      rw [hcons]
      refine ⟨by simp, ⟨fun _ => by simp [akeys], fun _ => by simp⟩, ?_⟩
      intro p hp
      rw [List.mem_singleton] at hp
      subst hp
      simp [alookup]
    · have hcons :
          patchesForId
            (((k, v) :: rest).map fun kv => TrackChange.TrackPatch kv.2) i
          = patchesForId (rest.map fun kv => TrackChange.TrackPatch kv.2) i
          := by
        have hne : v.id ≠ i := by rw [hvk]; exact hki
        rw [List.map_cons, patchesForId_cons_patch, if_neg hne]
      rw [hcons]
      refine ⟨ha, ?_, ?_⟩
      · rw [hb]
        simp only [akeys, List.map_cons, List.mem_cons]
        constructor
        · intro h2
          exact Or.inr (by simpa [akeys] using h2)
        · rintro (rfl | h2)
          · exact absurd rfl hki
          · simpa [akeys] using h2
      · intro p hp
        rw [alookup_cons, if_neg hki]
        exact hc p hp

/-! ## Claim C4 -/

theorem patchesForId_retainIce (k i : Nat) :
    ∀ (l : List TrackChange) (j : Nat),
      patchesForId (retainIceAt k j l) i = patchesForId l i := by
  intro l
  induction l with
  | nil => intro j; rfl
  | cons c rest ih =>
    intro j
    by_cases hcond : j = k ∨ isIceRestart c = false
    · rw [show retainIceAt k j (c :: rest)
            = c :: retainIceAt k (j + 1) rest from by
          simp [retainIceAt, hcond]]
      cases c with
      | TrackPatch t =>
        rw [patchesForId_cons_patch, patchesForId_cons_patch, ih (j + 1)]
      | AddSendTrack t =>
        rw [patchesForId_cons_other _ _ _ (by intro p h2; cases h2),
          patchesForId_cons_other _ _ _ (by intro p h2; cases h2), ih (j + 1)]
      | AddRecvTrack t =>
        rw [patchesForId_cons_other _ _ _ (by intro p h2; cases h2),
          patchesForId_cons_other _ _ _ (by intro p h2; cases h2), ih (j + 1)]
      | PartnerTrackPatch t =>
        rw [patchesForId_cons_other _ _ _ (by intro p h2; cases h2),
          patchesForId_cons_other _ _ _ (by intro p h2; cases h2), ih (j + 1)]
      | IceRestart =>
        rw [patchesForId_cons_other _ _ _ (by intro p h2; cases h2),
          patchesForId_cons_other _ _ _ (by intro p h2; cases h2), ih (j + 1)]
    · have hic : c = TrackChange.IceRestart := by
        push_neg at hcond
        cases c with
        | IceRestart => rfl
        | AddSendTrack t => exact absurd rfl hcond.2
        | AddRecvTrack t => exact absurd rfl hcond.2
        | TrackPatch t => exact absurd rfl hcond.2
        | PartnerTrackPatch t => exact absurd rfl hcond.2
      subst hic
      rw [show retainIceAt k j (TrackChange.IceRestart :: rest)
            = retainIceAt k (j + 1) rest from by
          simp [retainIceAt, hcond]]
      rw [ih (j + 1),
        patchesForId_cons_other _ _ _ (by intro p h2; cases h2)]

theorem patchesForId_dedupIce (l : List TrackChange) (i : Nat) :
    patchesForId (dedupIceRestartsList l) i = patchesForId l i := by
  unfold dedupIceRestartsList
  cases lastIceRestartIdx l with
  | none => rfl
  | some k => exact patchesForId_retainIce k i l 0

theorem patchesForId_drainRetained_nil (l : List TrackChange) (i : Nat) :
    patchesForId (l.filter fun ch => (drainedPatch none ch).isNone) i
      = [] := by
  induction l with
  | nil => rfl
  | cons c rest ih =>
    cases c with
    | TrackPatch t =>
      rw [List.filter_cons, if_neg (show
          ¬ ((drainedPatch none (TrackChange.TrackPatch t)).isNone = true)
          from by simp [drainedPatch, inWhitelist])]
      exact ih
    | AddSendTrack t =>
      rw [List.filter_cons, if_pos (show
          (drainedPatch none (TrackChange.AddSendTrack t)).isNone = true
          from rfl),
        patchesForId_cons_other _ _ _ (by intro p h2; cases h2)]
      exact ih
    | AddRecvTrack t =>
      rw [List.filter_cons, if_pos (show
          (drainedPatch none (TrackChange.AddRecvTrack t)).isNone = true
          from rfl),
        patchesForId_cons_other _ _ _ (by intro p h2; cases h2)]
      exact ih
    | PartnerTrackPatch t =>
      rw [List.filter_cons, if_pos (show
          (drainedPatch none (TrackChange.PartnerTrackPatch t)).isNone = true
          from rfl),
        patchesForId_cons_other _ _ _ (by intro p h2; cases h2)]
      exact ih
    | IceRestart =>
      rw [List.filter_cons, if_pos (show
          (drainedPatch none TrackChange.IceRestart).isNone = true
          from rfl),
        patchesForId_cons_other _ _ _ (by intro p h2; cases h2)]
      exact ih

/-- Unfolding of the pending updates after `dedup_pending_track_updates`:
the retained (non-patch) entries followed by the merged patches. -/
theorem dedup_track_patches_pending (c : Context) :
    (c.dedup_pending_track_updates).pending_track_updates =
      (drainMergeGo none []
          (dedupIceRestartsList c.pending_track_updates)).2
        ++ ((drainMergeGo none []
              (dedupIceRestartsList c.pending_track_updates)).1.map
            fun kv => TrackChange.TrackPatch kv.2) := rfl

/-- The combined effect of `dedup_track_patches` after the IceRestart
dedup, on an arbitrary pending list: at most one patch per id, presence
is preserved, and the surviving patch is the left-to-right merge. -/
theorem dedupPatches_spec (L : List TrackChange) (i : Nat) :
    (patchesForId ((drainMergeGo none [] (dedupIceRestartsList L)).2
        ++ ((drainMergeGo none [] (dedupIceRestartsList L)).1.map
            fun kv => TrackChange.TrackPatch kv.2)) i).length ≤ 1 ∧
    (patchesForId ((drainMergeGo none [] (dedupIceRestartsList L)).2
        ++ ((drainMergeGo none [] (dedupIceRestartsList L)).1.map
            fun kv => TrackChange.TrackPatch kv.2)) i ≠ [] ↔
      patchesForId L i ≠ []) ∧
    (∀ p, p ∈ patchesForId
        ((drainMergeGo none [] (dedupIceRestartsList L)).2
          ++ ((drainMergeGo none [] (dedupIceRestartsList L)).1.map
              fun kv => TrackChange.TrackPatch kv.2)) i →
      p = (patchesForId L i).foldl TrackPatchEvent.merge
        (TrackPatchEvent.new i)) := by
  have hids : resultIdsOk
      (drainMergeGo none [] (dedupIceRestartsList L)).1 :=
    drainMergeGo_idsOk none _ [] (by intro kv hkv; cases hkv)
  have hnd : (akeys
      (drainMergeGo none [] (dedupIceRestartsList L)).1).Nodup :=
    drainMergeGo_nodup none _ [] (by simp [akeys])
  obtain ⟨ha, hb, hc⟩ := into_patches_spec i _ hids hnd
  have hretained := drainMergeGo_retained none (dedupIceRestartsList L) []
  rw [patchesForId_append, hretained, patchesForId_drainRetained_nil,
    List.nil_append]
  refine ⟨ha, ?_, ?_⟩
  · rw [hb, mem_akeys_drainMergeGo none i _ [],
      ← patchesForId_ne_nil_iff, patchesForId_dedupIce]
    simp [akeys, inWhitelist]
  · intro p hp
    have hlook := hc p hp
    have hval := alookup_drainMergeGo none i rfl (dedupIceRestartsList L) []
    simp only [alookup] at hval
    rw [hlook] at hval
    by_cases hnil : patchesForId (dedupIceRestartsList L) i = []
    · rw [if_pos hnil] at hval
      cases hval
    · rw [if_neg hnil] at hval
      injection hval with hinj
      rw [patchesForId_dedupIce] at hinj
      exact hinj

/-- C4: after a commit of scheduled changes on a `Stable` peer, the
pending updates contain at most one `TrackPatch` per `TrackId`; one is
present for an id exactly when the prior pending updates or the records
of the drained queue contained a patch for it; and the surviving patch is
the left-to-right fold of `TrackPatchEvent.merge` over all those patches
(later non-absent fields override earlier ones). -/
theorem C4_patch_dedup (c : Context) (i : Nat)
    (hq : c.track_changes_queue ≠ []) :
    (patchesForId
      (c.commit_scheduled_changes).1.pending_track_updates i).length ≤ 1 ∧
    (patchesForId (c.commit_scheduled_changes).1.pending_track_updates i
        ≠ [] ↔
      patchesForId (c.pending_track_updates ++
        changeRecords { c with track_changes_queue := [] }
          c.track_changes_queue) i ≠ []) ∧
    (∀ p, p ∈ patchesForId
        (c.commit_scheduled_changes).1.pending_track_updates i →
      p = (patchesForId (c.pending_track_updates ++
            changeRecords { c with track_changes_queue := [] }
              c.track_changes_queue) i).foldl TrackPatchEvent.merge
          (TrackPatchEvent.new i)) := by
  rw [commit_spec c hq]
  obtain ⟨s, r, hA⟩ := applyChanges_spec c.track_changes_queue
    { c with track_changes_queue := [] }
  have hPend : (Context.applyChanges { c with track_changes_queue := [] }
      c.track_changes_queue).pending_track_updates =
      c.pending_track_updates ++
        changeRecords { c with track_changes_queue := [] }
          c.track_changes_queue := by
    rw [hA]
  simp only [dedup_track_patches_pending, hPend]
  exact dedupPatches_spec _ i

/-- C4 (witness): the theorem applied to the concrete peer `ctxF` with
its one scheduled patch for track 0. -/
theorem C4_witness :
    (patchesForId
      (ctxF.commit_scheduled_changes).1.pending_track_updates 0).length
      ≤ 1 :=
  (C4_patch_dedup ctxF 0 (by decide)).1

/-! ## Force-commit lemmas (claim C3) -/

/-- The queue retained by the force loop is exactly the
non-force-applicable entries, in order. -/
theorem forceLoop_kept (l : List TrackChange) : ∀ c : Context,
    (Context.forceLoop c l).2.2 = l.filter fun ch => !ch.can_force_apply := by
  induction l with
  | nil => intro c; rfl
  | cons ch rest ih =>
    intro c
    by_cases h : ch.can_force_apply = true
    · simp [Context.forceLoop, h, ih, List.filter_cons]
    · simp only [Bool.not_eq_true] at h
      simp [Context.forceLoop, h, ih, List.filter_cons]

/-- The force loop only rewrites `senders`/`receivers`. -/
theorem forceLoop_shape (l : List TrackChange) : ∀ c : Context,
    ∃ s r, (Context.forceLoop c l).1 =
      { c with senders := s, receivers := r } := by
  induction l with
  | nil => intro c; exact ⟨c.senders, c.receivers, rfl⟩
  | cons ch rest ih =>
    intro c
    by_cases h : ch.can_force_apply = true
    · obtain ⟨s1, r1, h1⟩ := applyTrackChange_shape c ch
      obtain ⟨s2, r2, h2⟩ := ih (c.applyTrackChange ch).1
      refine ⟨s2, r2, ?_⟩
      simp only [Context.forceLoop, h, if_pos]
      rw [h2, h1]
    · simp only [Bool.not_eq_true] at h
      obtain ⟨s2, r2, h2⟩ := ih c
      refine ⟨s2, r2, ?_⟩
      simp only [Context.forceLoop, h]
      simpa using h2

/-- Every record the force loop dispatches is a `TrackPatch`. -/
theorem forceLoop_records_patches (l : List TrackChange) : ∀ (c : Context)
    (t : TrackChange), t ∈ (Context.forceLoop c l).2.1 →
      ∃ p, t = TrackChange.TrackPatch p := by
  induction l with
  | nil => intro c t ht; cases ht
  | cons ch rest ih =>
    intro c t ht
    by_cases h : ch.can_force_apply = true
    · simp only [Context.forceLoop, h, if_pos] at ht
      rcases List.mem_cons.mp ht with rfl | hmem
      · exact applyTrackChange_forcible c ch h
      · exact ih (c.applyTrackChange ch).1 t hmem
    · simp only [Bool.not_eq_true] at h
      simp only [Context.forceLoop, h] at ht
      exact ih c t (by simpa using ht)

/-- With nothing force-applicable, the force loop does nothing. -/
theorem forceLoop_no_forcible (l : List TrackChange) : ∀ c : Context,
    (∀ ch ∈ l, ch.can_force_apply = false) →
      Context.forceLoop c l = (c, [], l) := by
  induction l with
  | nil => intro c _; rfl
  | cons ch rest ih =>
    intro c h
    have hch : ch.can_force_apply = false := h ch (List.mem_cons_self _ _)
    have hrest := ih c fun ch2 h2 => h ch2 (List.mem_cons_of_mem _ h2)
    simp [Context.forceLoop, hch, hrest]

/-- With a force-applicable entry present, the force loop dispatches at
least one record. -/
theorem forceLoop_records_ne_nil (l : List TrackChange) : ∀ c : Context,
    (∃ ch ∈ l, ch.can_force_apply = true) →
      (Context.forceLoop c l).2.1 ≠ [] := by
  induction l with
  | nil =>
    intro c h
    obtain ⟨ch, hmem, -⟩ := h
    cases hmem
  | cons ch rest ih =>
    intro c h
    by_cases hch : ch.can_force_apply = true
    · simp [Context.forceLoop, hch]
    · simp only [Bool.not_eq_true] at hch
      obtain ⟨ch2, hmem, hforce⟩ := h
      rcases List.mem_cons.mp hmem with rfl | hmem2
      · rw [hch] at hforce
        cases hforce
      · simp only [Context.forceLoop, hch]
        simpa using ih c ⟨ch2, hmem2, hforce⟩

/-- A drain-merge whose whitelist is empty drains nothing. -/
theorem drainMergeGo_emptyWl (l : List TrackChange) :
    ∀ r, drainMergeGo (some []) r l = (r, l) := by
  induction l with
  | nil => intro r; rfl
  | cons c rest ih =>
    intro r
    have hd : drainedPatch (some []) c = none := by
      cases c <;> simp [drainedPatch, inWhitelist]
    simp [drainMergeGo, hd, ih]

theorem alookup_of_mem_nodup {κ α : Type} [DecidableEq κ] :
    ∀ (l : List (κ × α)) (k : κ) (v : α), (akeys l).Nodup →
      (k, v) ∈ l → alookup k l = some v := by
  intro l
  induction l with
  | nil => intro k v _ h; cases h
  | cons hd tl ih =>
    intro k v hnd hmem
    obtain ⟨k1, v1⟩ := hd
    simp only [akeys, List.map_cons, List.nodup_cons] at hnd
    rcases List.mem_cons.mp hmem with heq | hmem2
    · cases heq
      simp [alookup]
    · have hne : ¬ k1 = k := by
        intro he
        subst he
        exact hnd.1 (List.mem_map.mpr ⟨(k1, v), hmem2, rfl⟩)
      rw [alookup_cons, if_neg hne]
      exact ih k v hnd.2 hmem2

/-- The ids of the `Updated` events built from a deduper's map are
exactly its keys. -/
theorem updateIds_into (pm : String) :
    ∀ r : List (Nat × TrackPatchEvent), resultIdsOk r →
      updateIds ((r.map fun kv => TrackChange.TrackPatch kv.2).map
        (TrackChange.as_track_update pm)) = akeys r := by
  intro r
  induction r with
  | nil => intro _; rfl
  | cons kv rest ih =>
    intro hids
    obtain ⟨k, v⟩ := kv
    have hvk : v.id = k := hids (k, v) (List.mem_cons_self _ _)
    have hrest := ih fun kv2 h2 => hids kv2 (List.mem_cons_of_mem _ h2)
    simp only [List.map_cons, updateIds, List.filterMap_cons,
      TrackChange.as_track_update] at hrest ⊢
    rw [hrest]
    simp [akeys, hvk]

/-- Membership in the whitelist built from the dispatched records. -/
theorem mem_forceWl (forcible : List TrackChange) (i : Nat) :
    i ∈ (forcible.filterMap fun t =>
        match t with
        | TrackChange.TrackPatch p => some p.id
        | _ => none) ↔
      ∃ p, TrackChange.TrackPatch p ∈ forcible ∧ p.id = i := by
  rw [List.mem_filterMap]
  constructor
  · rintro ⟨t, ht, hf⟩
    cases t with
    | TrackPatch p =>
      simp only [Option.some.injEq] at hf
      exact ⟨p, ht, hf⟩
    | AddSendTrack t2 => cases hf
    | AddRecvTrack t2 => cases hf
    | PartnerTrackPatch t2 => cases hf
    | IceRestart => cases hf
  · rintro ⟨p, hp, rfl⟩
    exact ⟨TrackChange.TrackPatch p, hp, rfl⟩

/-- The full force-update pipeline: given the dispatched records (all
`TrackPatch`es), the emitted updates cover exactly the forcible ids, are
non-empty when any record exists, and each carries the merge of the
pending and forcible patches for its id. -/
theorem forcePipeline_spec (pending forcible : List TrackChange)
    (pm : String) (wl : List Nat)
    (hwl : wl = forcible.filterMap fun t =>
      match t with
      | TrackChange.TrackPatch p => some p.id
      | _ => none)
    (us : List TrackUpdate)
    (hus : us = (((drainMergeGo (some wl)
        ((drainMergeGo (some wl) [] pending).1) forcible).1).map
          fun kv => TrackChange.TrackPatch kv.2).map
        (TrackChange.as_track_update pm))
    (hforc : ∀ t ∈ forcible, ∃ p, t = TrackChange.TrackPatch p) :
    (∀ i, i ∈ updateIds us ↔ i ∈ wl) ∧
    (forcible ≠ [] → us ≠ []) ∧
    (∀ q, TrackUpdate.Updated q ∈ us →
      q = (patchesForId pending q.id ++ patchesForId forcible q.id).foldl
        TrackPatchEvent.merge (TrackPatchEvent.new q.id)) := by
  have hids1 : resultIdsOk (drainMergeGo (some wl) [] pending).1 :=
    drainMergeGo_idsOk _ _ [] (by intro kv hkv; cases hkv)
  have hids2 : resultIdsOk (drainMergeGo (some wl)
      ((drainMergeGo (some wl) [] pending).1) forcible).1 :=
    drainMergeGo_idsOk _ _ _ hids1
  have hnd1 : (akeys (drainMergeGo (some wl) [] pending).1).Nodup :=
    drainMergeGo_nodup _ _ [] (by simp [akeys])
  have hnd2 : (akeys (drainMergeGo (some wl)
      ((drainMergeGo (some wl) [] pending).1) forcible).1).Nodup :=
    drainMergeGo_nodup _ _ _ hnd1
  have hmemwl : ∀ i, i ∈ akeys (drainMergeGo (some wl)
      ((drainMergeGo (some wl) [] pending).1) forcible).1 ↔ i ∈ wl := by
    intro i
    rw [mem_akeys_drainMergeGo, mem_akeys_drainMergeGo]
    constructor
    · rintro ((habs | ⟨-, hin⟩) | ⟨-, hin⟩)
      · simp [akeys] at habs
      · simpa [inWhitelist, List.elem_iff] using hin
      · simpa [inWhitelist, List.elem_iff] using hin
    · intro hin
      refine Or.inr ⟨?_, by simpa [inWhitelist, List.elem_iff] using hin⟩
      rw [hwl] at hin
      exact (mem_forceWl forcible i).mp hin
  have hidsus : updateIds us = akeys (drainMergeGo (some wl)
      ((drainMergeGo (some wl) [] pending).1) forcible).1 := by
    rw [hus]
    exact updateIds_into pm _ hids2
  refine ⟨?_, ?_, ?_⟩
  · intro i
    rw [hidsus]
    exact hmemwl i
  · intro hne hus0
    obtain ⟨t, ht⟩ := List.exists_mem_of_ne_nil forcible hne
    obtain ⟨p, rfl⟩ := hforc t ht
    have hpwl : p.id ∈ wl := by
      rw [hwl]
      exact (mem_forceWl forcible p.id).mpr ⟨p, ht, rfl⟩
    have : p.id ∈ updateIds us := by
      rw [hidsus]
      exact (hmemwl p.id).mpr hpwl
    rw [hus0] at this
    cases this
  · intro q hq
    have hqid : q.id ∈ wl := by
      have : q.id ∈ updateIds us := by
        rw [updateIds, List.mem_filterMap]
        exact ⟨TrackUpdate.Updated q, hq, rfl⟩
      rw [hidsus] at this
      exact (hmemwl q.id).mp this
    have hwq : inWhitelist (some wl) q.id = true := by
      simpa [inWhitelist, List.elem_iff] using hqid
    -- membership gives the deduper entry for q
    rw [hus] at hq
    obtain ⟨ch, hch, hcheq⟩ := List.mem_map.mp hq
    obtain ⟨kv, hkv, rfl⟩ := List.mem_map.mp hch
    have hkvq : kv.2 = q := by
      simpa [TrackChange.as_track_update] using hcheq
    have hkvid : kv.1 = q.id := by
      rw [← hkvq]
      exact (hids2 kv hkv).symm
    have hlook : alookup q.id (drainMergeGo (some wl)
        ((drainMergeGo (some wl) [] pending).1) forcible).1 = some q := by
      have := alookup_of_mem_nodup _ kv.1 kv.2 hnd2 (by simpa using hkv)
      rw [hkvid, hkvq] at this
      exact this
    have hv2 := alookup_drainMergeGo (some wl) q.id hwq forcible
      ((drainMergeGo (some wl) [] pending).1)
    have hv1 := alookup_drainMergeGo (some wl) q.id hwq pending []
    simp only [alookup] at hv1
    rw [hlook, hv1] at hv2
    by_cases hpnil : patchesForId pending q.id = []
    · have h2 : some q = (if patchesForId forcible q.id = [] then none
          else some ((patchesForId forcible q.id).foldl
            TrackPatchEvent.merge (TrackPatchEvent.new q.id))) := by
        rw [if_pos hpnil] at hv2
        exact hv2
      by_cases hfnil : patchesForId forcible q.id = []
      · rw [if_pos hfnil] at h2
        cases h2
      · rw [if_neg hfnil] at h2
        injection h2 with h
        rw [hpnil, List.nil_append]
        exact h
    · have h2 : some q = some ((patchesForId forcible q.id).foldl
          TrackPatchEvent.merge ((patchesForId pending q.id).foldl
            TrackPatchEvent.merge (TrackPatchEvent.new q.id))) := by
        rw [if_neg hpnil] at hv2
        exact hv2
      injection h2 with h
      rw [List.foldl_append]
      exact h

/-- The state component of `inner_force_commit_scheduled_changes`: the
force-loop result with the retained queue and the drain-merged pending
updates. -/
theorem innerForce_ctx (c : Context) :
    (c.inner_force_commit_scheduled_changes).1 =
      { (Context.forceLoop { c with track_changes_queue := [] }
          c.track_changes_queue).1 with
        track_changes_queue :=
          (Context.forceLoop { c with track_changes_queue := [] }
            c.track_changes_queue).2.2
        pending_track_updates :=
          (drainMergeGo (some (forcePatchIds c)) []
            ((Context.forceLoop { c with track_changes_queue := [] }
              c.track_changes_queue).1.pending_track_updates)).2 } := by
  simp only [Context.inner_force_commit_scheduled_changes]
  split
  · exact rfl
  · exact rfl

theorem innerForce_queue (c : Context) :
    (c.inner_force_commit_scheduled_changes).1.track_changes_queue =
      c.track_changes_queue.filter fun ch => !ch.can_force_apply := by
  rw [innerForce_ctx]
  exact forceLoop_kept c.track_changes_queue
    { c with track_changes_queue := [] }

theorem innerForce_pending (c : Context) :
    (c.inner_force_commit_scheduled_changes).1.pending_track_updates =
      c.pending_track_updates.filter fun ch =>
        (drainedPatch (some (forcePatchIds c)) ch).isNone := by
  rw [innerForce_ctx]
  obtain ⟨s, r, hshape⟩ := forceLoop_shape c.track_changes_queue
    { c with track_changes_queue := [] }
  show (drainMergeGo (some (forcePatchIds c)) []
      ((Context.forceLoop { c with track_changes_queue := [] }
        c.track_changes_queue).1.pending_track_updates)).2 = _
  rw [drainMergeGo_retained, hshape]

/-- With nothing force-applicable queued, the forcible commit is a
complete no-op that emits nothing. -/
theorem innerForce_noop (c : Context)
    (h : ∀ ch ∈ c.track_changes_queue, ch.can_force_apply = false) :
    c.inner_force_commit_scheduled_changes = (c, []) := by
  have hfl := forceLoop_no_forcible c.track_changes_queue
    { c with track_changes_queue := [] } h
  simp only [Context.inner_force_commit_scheduled_changes, hfl,
    TrackPatchDeduper.drain_merge, TrackPatchDeduper.with_whitelist,
    List.filterMap_nil, drainMergeGo_emptyWl, TrackPatchDeduper.into_inner,
    List.map_nil]
  rfl

/-- Either nothing is emitted (and the update list is empty) or exactly
one `force_update` with the computed update list. -/
theorem innerForce_events (c : Context) :
    (forceUpdatesOf c = [] ∧
      (c.inner_force_commit_scheduled_changes).2 = []) ∨
    (c.inner_force_commit_scheduled_changes).2 =
      [PeerEvent.force_update c.id (forceUpdatesOf c)] := by
  simp only [Context.inner_force_commit_scheduled_changes]
  split
  next hb => exact Or.inl ⟨List.isEmpty_iff.mp hb, rfl⟩
  next hb => exact Or.inr rfl

/-! ## Claim C3 -/

/-- C3: forcibly committing scheduled changes on a non-`Stable` peer
keeps exactly the non-force-applicable entries in the queue (in order),
drains from `pending_track_updates` exactly the patches whose id is among
the forcibly applied ones (merging them), is a complete no-op when no
queue entry is force-applicable, and otherwise emits one
`force_update(peer_id, updates)` whose updates are non-empty, cover
exactly the forcible ids, and carry, per id, the merge of the pending and
forcibly applied patches. -/
theorem C3_force_commit (p : PeerSM) (hs : p.state ≠ PeerState.Stable) :
    (p.force_commit_scheduled_changes).1.ctx.track_changes_queue =
      p.ctx.track_changes_queue.filter (fun ch => !ch.can_force_apply) ∧
    (p.force_commit_scheduled_changes).1.ctx.pending_track_updates =
      p.ctx.pending_track_updates.filter (fun ch =>
        (drainedPatch (some (forcePatchIds p.ctx)) ch).isNone) ∧
    ((∀ ch ∈ p.ctx.track_changes_queue, ch.can_force_apply = false) →
      p.force_commit_scheduled_changes = (p, [])) ∧
    ((∃ ch ∈ p.ctx.track_changes_queue, ch.can_force_apply = true) →
      ∃ us, (p.force_commit_scheduled_changes).2 =
          [PeerEvent.force_update p.ctx.id us] ∧ us ≠ [] ∧
        (∀ i, i ∈ updateIds us ↔ i ∈ forcePatchIds p.ctx) ∧
        (∀ q, TrackUpdate.Updated q ∈ us →
          q = (patchesForId p.ctx.pending_track_updates q.id ++
              patchesForId (forceRecords p.ctx) q.id).foldl
            TrackPatchEvent.merge (TrackPatchEvent.new q.id))) := by
  obtain ⟨st, c⟩ := p
  have hred : PeerSM.force_commit_scheduled_changes ⟨st, c⟩ =
      (⟨st, (c.inner_force_commit_scheduled_changes).1⟩,
        (c.inner_force_commit_scheduled_changes).2) := by
    cases st with
    | Stable => exact absurd rfl hs
    | WaitLocalSdp => rfl
    | WaitRemoteSdp => rfl
  rw [hred]
  refine ⟨innerForce_queue c, innerForce_pending c, ?_, ?_⟩
  · intro h
    rw [innerForce_noop c h]
  · intro h
    have hforc : ∀ t ∈ forceRecords c, ∃ q, t = TrackChange.TrackPatch q :=
      fun t ht => forceLoop_records_patches _ _ t ht
    obtain ⟨h1, h2, h3⟩ := forcePipeline_spec
      ((Context.forceLoop { c with track_changes_queue := [] }
        c.track_changes_queue).1.pending_track_updates)
      (forceRecords c) c.partner_member (forcePatchIds c) rfl
      (forceUpdatesOf c) rfl hforc
    have hne : forceRecords c ≠ [] :=
      forceLoop_records_ne_nil c.track_changes_queue _ h
    have husne : forceUpdatesOf c ≠ [] := h2 hne
    rcases innerForce_events c with ⟨hnil, -⟩ | hev
    · exact absurd hnil husne
    · refine ⟨forceUpdatesOf c, hev, husne, h1, ?_⟩
      intro q hq
      have hval := h3 q hq
      obtain ⟨s, r, hshape⟩ := forceLoop_shape c.track_changes_queue
        { c with track_changes_queue := [] }
      rw [hshape] at hval
      exact hval

/-- C3 (witness): the theorem applied to a non-`Stable` peer with one
scheduled (force-applicable) patch: its queue is left with exactly the
non-force-applicable entries. -/
theorem C3_witness :
    (PeerSM.force_commit_scheduled_changes
        { state := .WaitLocalSdp, ctx := ctxF }).1.ctx.track_changes_queue =
      ctxF.track_changes_queue.filter (fun ch => !ch.can_force_apply) :=
  (C3_force_commit { state := .WaitLocalSdp, ctx := ctxF } (by decide)).1

/-! ## C7: connect_endpoints under TURN failure -/

/-- `add_publisher` never changes the ids of the two peers it decorates
with tracks. -/
theorem add_publisher_ids (sp kp : SPeer) (tc : Nat)
    (a v : PublishPolicy) :
    (add_publisher sp kp tc a v).1.id = sp.id ∧
    (add_publisher sp kp tc a v).2.1.id = kp.id := by
  unfold add_publisher
  by_cases ha : a ≠ PublishPolicy.Disabled <;>
    by_cases hv : v ≠ PublishPolicy.Disabled <;>
      simp [ha, hv]

/-- C7 (counterexample): on the empty repository, connecting alice's
audio publish endpoint to bob's play endpoint with a TURN service that
fails for the second peer of the fresh pair surfaces the `RoomError`,
yet both peers of the pair are installed in the repository — the pair is
not rolled back. -/
theorem C7_counterexample :
    (PeerRepository.connect_endpoints repo0 srcEp sinkEp turnFail).2 =
      Except.error (RoomError.TurnServiceFailed "down") ∧
    (alookup 0 (PeerRepository.connect_endpoints repo0 srcEp sinkEp
      turnFail).1.peers).isSome = true ∧
    (alookup 1 (PeerRepository.connect_endpoints repo0 srcEp sinkEp
      turnFail).1.peers).isSome = true :=
  ⟨rfl, rfl, rfl⟩

/-- C7 (amended): whenever `connect_endpoints` creates a new pair (no
peer yet connects the two owners) and the TURN service fails for either
fresh peer id, the call surfaces a `RoomError`, but both peers of the
pair remain installed in the repository: the source inserts the pair
before awaiting the TURN requests and has no rollback path. -/
theorem C7_connect_endpoints_no_rollback (r : PeerRepository)
    (src : WebRtcPublishEndpoint) (sink : WebRtcPlayEndpoint)
    (turn : Nat → Except RoomError Nat)
    (hnew : r.get_peer_by_members_ids src.owner sink.owner = none)
    (hfail : ∃ e, turn r.peers_count = .error e ∨
      turn (r.peers_count + 1) = .error e) :
    (∃ e, (r.connect_endpoints src sink turn).2 = .error e) ∧
    (alookup r.peers_count
      (r.connect_endpoints src sink turn).1.peers).isSome = true ∧
    (alookup (r.peers_count + 1)
      (r.connect_endpoints src sink turn).1.peers).isSome = true := by
  obtain ⟨e, he⟩ := hfail
  have hid := add_publisher_ids
    (SPeer.new r.peers_count src.owner (r.peers_count + 1) sink.owner
      src.force_relayed)
    (SPeer.new (r.peers_count + 1) sink.owner r.peers_count src.owner
      sink.force_relayed)
    r.tracks_count src.audio_policy src.video_policy
  have hne : r.peers_count ≠ r.peers_count + 1 :=
    Nat.ne_of_lt (Nat.lt_succ_self _)
  simp only [PeerRepository.connect_endpoints, hnew, PeerRepository.add_peer]
  rw [hid.1, hid.2]
  cases hsrc : turn r.peers_count with
  | error e2 =>
    cases hsink : turn (r.peers_count + 1) with
    | error e3 =>
      exact ⟨⟨e2, rfl⟩,
        by simp [SPeer.new, alookup_ainsert_self, alookup_ainsert_ne _ _ hne],
        by simp [SPeer.new, alookup_ainsert_self]⟩
    | ok i =>
      exact ⟨⟨e2, rfl⟩,
        by simp [SPeer.new, alookup_ainsert_self, alookup_ainsert_ne _ _ hne],
        by simp [SPeer.new, alookup_ainsert_self]⟩
  | ok i1 =>
    cases hsink : turn (r.peers_count + 1) with
    | error e3 =>
      exact ⟨⟨e3, rfl⟩,
        by simp [SPeer.new, alookup_ainsert_self, alookup_ainsert_ne _ _ hne],
        by simp [SPeer.new, alookup_ainsert_self]⟩
    | ok i2 =>
      rcases he with he | he
      · rw [hsrc] at he
        exact Except.noConfusion he
      · rw [hsink] at he
        exact Except.noConfusion he

/-- C7 (witness): the amended theorem evaluated at the concrete fixture
of the counterexample. -/
theorem C7_witness :
    (∃ e, (PeerRepository.connect_endpoints repo0 srcEp sinkEp
      turnFail).2 = .error e) ∧
    (alookup repo0.peers_count (PeerRepository.connect_endpoints repo0
      srcEp sinkEp turnFail).1.peers).isSome = true ∧
    (alookup (repo0.peers_count + 1) (PeerRepository.connect_endpoints
      repo0 srcEp sinkEp turnFail).1.peers).isSome = true :=
  C7_connect_endpoints_no_rollback repo0 srcEp sinkEp turnFail rfl
    ⟨.TurnServiceFailed "down", Or.inr rfl⟩

/-! ## C8: remove_peers -/

theorem alookup_aerase_none {κ α : Type} [DecidableEq κ] {k : κ} (k' : κ)
    {l : List (κ × α)} (h : alookup k l = none) :
    alookup k (aerase k' l) = none := by
  by_cases hk : k = k'
  · subst hk
    exact alookup_aerase_self k l
  · rw [alookup_aerase_ne l hk]
    exact h

theorem alookup_aerase_some {κ α : Type} [DecidableEq κ] {k k' : κ}
    {l : List (κ × α)} {v : α} (h : alookup k (aerase k' l) = some v) :
    alookup k l = some v := by
  by_cases hk : k = k'
  · subst hk
    rw [alookup_aerase_self] at h
    exact Option.noConfusion h
  · rwa [alookup_aerase_ne l hk] at h

theorem alookup_some_mem {κ α : Type} [DecidableEq κ] {k : κ} {v : α} :
    ∀ {l : List (κ × α)}, alookup k l = some v → (k, v) ∈ l := by
  intro l
  induction l with
  | nil => intro h; exact Option.noConfusion h
  | cons hd tl ih =>
    obtain ⟨k', v'⟩ := hd
    intro h
    rw [alookup_cons] at h
    by_cases hk : k' = k
    · rw [if_pos hk] at h
      have hv := Option.some.inj h
      subst hv
      subst hk
      exact List.mem_cons_self _ _
    · rw [if_neg hk] at h
      exact List.mem_cons_of_mem _ (ih h)

/-- Membership in the flattened ids after an `entry(..).push(..)`. -/
theorem mem_groupedIds_pushEntry (k : String) (v q : Nat) :
    ∀ m : List (String × List Nat),
      q ∈ groupedIds (pushEntry m k v) ↔ q ∈ groupedIds m ∨ q = v := by
  intro m
  induction m with
  | nil => simp [pushEntry, groupedIds]
  | cons hd tl ih =>
    obtain ⟨k', vs⟩ := hd
    by_cases hk : k' = k
    · simp only [pushEntry, if_pos hk, groupedIds, List.mem_append,
        List.mem_singleton]
      tauto
    · simp only [pushEntry, if_neg hk, groupedIds, List.mem_append, ih]
      tauto

/-- Every id recorded after an `entry(..).push(..)` was already recorded
under the same key or is the pushed id under the pushed key. -/
theorem pushEntry_sound (k0 : String) (v : Nat) :
    ∀ (m : List (String × List Nat)) (k : String) (ks : List Nat),
      (k, ks) ∈ pushEntry m k0 v → ∀ q ∈ ks,
        (∃ ks0, (k, ks0) ∈ m ∧ q ∈ ks0) ∨ (k = k0 ∧ q = v) := by
  intro m
  induction m with
  | nil =>
    intro k ks hmem q hq
    simp only [pushEntry, List.mem_singleton] at hmem
    rw [Prod.mk.injEq] at hmem
    obtain ⟨rfl, rfl⟩ := hmem
    rw [List.mem_singleton] at hq
    exact Or.inr ⟨rfl, hq⟩
  | cons hd tl ih =>
    obtain ⟨k', vs⟩ := hd
    intro k ks hmem q hq
    by_cases hk : k' = k0
    · simp only [pushEntry, if_pos hk] at hmem
      rcases List.mem_cons.mp hmem with heq | hmem2
      · rw [Prod.mk.injEq] at heq
        obtain ⟨rfl, rfl⟩ := heq
        rcases List.mem_append.mp hq with hq2 | hq2
        · exact Or.inl ⟨vs, List.mem_cons_self _ _, hq2⟩
        · rw [List.mem_singleton] at hq2
          exact Or.inr ⟨hk, hq2⟩
      · exact Or.inl ⟨ks, List.mem_cons_of_mem _ hmem2, hq⟩
    · simp only [pushEntry, if_neg hk] at hmem
      rcases List.mem_cons.mp hmem with heq | hmem2
      · rw [Prod.mk.injEq] at heq
        obtain ⟨rfl, rfl⟩ := heq
        exact Or.inl ⟨ks, List.mem_cons_self _ _, hq⟩
      · rcases ih k ks hmem2 q hq with ⟨ks0, h1, h2⟩ | h
        · exact Or.inl ⟨ks0, List.mem_cons_of_mem _ h1, h2⟩
        · exact Or.inr h

/-- An id absent from the repository stays absent through the
`remove_peers` loop: the loop only erases entries. -/
theorem removePeersGo_none_mono (mid : String) (q : Nat) :
    ∀ (ids : List Nat) (repo : PeerRepository)
      (acc : List (String × List Nat)),
      alookup q repo.peers = none →
      alookup q (removePeersGo mid repo ids acc).1.peers = none := by
  intro ids
  induction ids with
  | nil => intro repo acc h; exact h
  | cons p rest ih =>
    intro repo acc h
    cases hp : alookup p repo.peers with
    | none =>
      simp only [removePeersGo, hp]
      exact ih repo acc h
    | some peer =>
      simp only [removePeersGo, hp]
      split
      next hc => exact ih _ _ (alookup_aerase_none _ (alookup_aerase_none _ h))
      next hc => exact ih _ _ (alookup_aerase_none _ h)

/-- Every listed peer is absent from the repository after the
`remove_peers` loop. -/
theorem removePeersGo_listed (mid : String) :
    ∀ (ids : List Nat) (repo : PeerRepository)
      (acc : List (String × List Nat)),
      ∀ pid ∈ ids, alookup pid (removePeersGo mid repo ids acc).1.peers = none := by
  intro ids
  induction ids with
  | nil => intro repo acc pid h; exact absurd h (List.not_mem_nil pid)
  | cons p rest ih =>
    intro repo acc pid hmem
    cases hp : alookup p repo.peers with
    | none =>
      simp only [removePeersGo, hp]
      rcases List.mem_cons.mp hmem with rfl | hmem2
      · exact removePeersGo_none_mono mid pid rest repo acc hp
      · exact ih repo acc pid hmem2
    | some peer =>
      simp only [removePeersGo, hp]
      split
      next hc =>
        rcases List.mem_cons.mp hmem with rfl | hmem2
        · exact removePeersGo_none_mono mid pid rest _ _
            (alookup_aerase_none _ (alookup_aerase_self _ _))
        · exact ih _ _ pid hmem2
      next hc =>
        rcases List.mem_cons.mp hmem with rfl | hmem2
        · exact removePeersGo_none_mono mid pid rest _ _
            (alookup_aerase_self _ _)
        · exact ih _ _ pid hmem2

/-- Through the `remove_peers` loop, (a) surviving entries keep their
initial values, and (b) pairs are removed atomically: whenever a peer of
the consistent initial repository is gone, so is its partner. -/
theorem removePeersGo_preserves (init : PeerRepository)
    (hcons : PairConsistent init) (mid : String) :
    ∀ (ids : List Nat) (repo : PeerRepository)
      (acc : List (String × List Nat)),
      (∀ k v, alookup k repo.peers = some v → alookup k init.peers = some v) →
      (∀ k peer, alookup k init.peers = some peer →
        alookup k repo.peers = none →
        alookup peer.partner_peer repo.peers = none) →
      ((∀ k v, alookup k (removePeersGo mid repo ids acc).1.peers = some v →
          alookup k init.peers = some v) ∧
        (∀ k peer, alookup k init.peers = some peer →
          alookup k (removePeersGo mid repo ids acc).1.peers = none →
          alookup peer.partner_peer
            (removePeersGo mid repo ids acc).1.peers = none)) := by
  intro ids
  induction ids with
  | nil => intro repo acc ha hb; exact ⟨ha, hb⟩
  | cons p rest ih =>
    intro repo acc ha hb
    cases hp : alookup p repo.peers with
    | none =>
      simp only [removePeersGo, hp]
      exact ih repo acc ha hb
    | some peer =>
      simp only [removePeersGo, hp]
      split
      next hc =>
        apply ih
        · intro k v hk
          exact ha k v (alookup_aerase_some (alookup_aerase_some hk))
        · intro k pk hkinit hknone
          by_cases hkp : k = p
          · subst hkp
            have hpk : pk = peer := by
              have := ha k peer hp
              rw [hkinit] at this
              exact Option.some.inj this
            subst hpk
            exact alookup_aerase_self _ _
          · by_cases hkq : k = peer.partner_peer
            · subst hkq
              obtain ⟨qq, hqq, hqp, -, -⟩ := hcons p peer (ha p peer hp)
              rw [hkinit] at hqq
              have hq2 : pk.partner_peer = p := by
                rw [Option.some.inj hqq]
                exact hqp
              rw [hq2]
              exact alookup_aerase_none _ (alookup_aerase_self _ _)
            · have hkrepo : alookup k repo.peers = none := by
                rw [← alookup_aerase_ne repo.peers hkp,
                  ← alookup_aerase_ne (aerase p repo.peers) hkq]
                exact hknone
              have hpart := hb k pk hkinit hkrepo
              exact alookup_aerase_none _ (alookup_aerase_none _ hpart)
      next hc =>
        apply ih
        · intro k v hk
          exact ha k v (alookup_aerase_some hk)
        · intro k pk hkinit hknone
          by_cases hkp : k = p
          · subst hkp
            have hpk : pk = peer := by
              have := ha k peer hp
              rw [hkinit] at this
              exact Option.some.inj this
            subst hpk
            exact Option.not_isSome_iff_eq_none.mp fun hs => hc hs
          · have hkrepo : alookup k repo.peers = none := by
              rw [← alookup_aerase_ne repo.peers hkp]
              exact hknone
            exact alookup_aerase_none _ (hb k pk hkinit hkrepo)

/-- An id is recorded by the `remove_peers` loop exactly when it was
already recorded or it is a repository entry the loop removed. -/
theorem removePeersGo_recorded (mid : String) :
    ∀ (ids : List Nat) (repo : PeerRepository)
      (acc : List (String × List Nat)) (q : Nat),
      q ∈ groupedIds (removePeersGo mid repo ids acc).2 ↔
        (q ∈ groupedIds acc ∨
          ((alookup q repo.peers).isSome = true ∧
            alookup q (removePeersGo mid repo ids acc).1.peers = none)) := by
  intro ids
  induction ids with
  | nil =>
    intro repo acc q
    simp only [removePeersGo]
    constructor
    · exact Or.inl
    · rintro (h | ⟨hs, hn⟩)
      · exact h
      · rw [hn] at hs
        simp at hs
  | cons p rest ih =>
    intro repo acc q
    cases hp : alookup p repo.peers with
    | none =>
      simp only [removePeersGo, hp]
      rw [ih repo acc q]
    | some peer =>
      simp only [removePeersGo, hp]
      split
      next hc =>
        rw [ih _ _ q, mem_groupedIds_pushEntry, mem_groupedIds_pushEntry]
        constructor
        · rintro (((hacc | hpart) | hq) | ⟨hs2, hn⟩)
          · exact Or.inl hacc
          · subst hpart
            obtain ⟨v, hv⟩ := Option.isSome_iff_exists.mp hc
            refine Or.inr ⟨?_, ?_⟩
            · rw [alookup_aerase_some hv]
              rfl
            · exact removePeersGo_none_mono mid peer.partner_peer rest _ _
                (alookup_aerase_self _ _)
          · subst hq
            refine Or.inr ⟨by rw [hp]; rfl, ?_⟩
            exact removePeersGo_none_mono mid q rest _ _
              (alookup_aerase_none _ (alookup_aerase_self _ _))
          · obtain ⟨v, hv⟩ := Option.isSome_iff_exists.mp hs2
            refine Or.inr ⟨?_, hn⟩
            rw [alookup_aerase_some (alookup_aerase_some hv)]
            rfl
        · rintro (hacc | ⟨hs, hn⟩)
          · exact Or.inl (Or.inl (Or.inl hacc))
          · by_cases hqp : q = p
            · exact Or.inl (Or.inr hqp)
            · by_cases hqpart : q = peer.partner_peer
              · exact Or.inl (Or.inl (Or.inr hqpart))
              · refine Or.inr ⟨?_, hn⟩
                rw [← alookup_aerase_ne repo.peers hqp,
                  ← alookup_aerase_ne (aerase p repo.peers) hqpart] at hs
                exact hs
      next hc =>
        rw [ih _ _ q, mem_groupedIds_pushEntry]
        constructor
        · rintro ((hacc | hq) | ⟨hs1, hn⟩)
          · exact Or.inl hacc
          · subst hq
            refine Or.inr ⟨by rw [hp]; rfl, ?_⟩
            exact removePeersGo_none_mono mid q rest _ _
              (alookup_aerase_self _ _)
          · obtain ⟨v, hv⟩ := Option.isSome_iff_exists.mp hs1
            refine Or.inr ⟨?_, hn⟩
            rw [alookup_aerase_some hv]
            rfl
        · rintro (hacc | ⟨hs, hn⟩)
          · exact Or.inl (Or.inl hacc)
          · by_cases hqp : q = p
            · exact Or.inl (Or.inr hqp)
            · refine Or.inr ⟨?_, hn⟩
              rw [← alookup_aerase_ne repo.peers hqp] at hs
              exact hs

/-- Grouping soundness of the map built by the `remove_peers` loop:
every `(member, id)` entry was in the accumulator, or is a listed id
under the passed member id, or is the partner of a listed peer under
that peer's partner member. -/
theorem removePeersGo_grouping (mid : String) :
    ∀ (ids : List Nat) (repo : PeerRepository)
      (acc : List (String × List Nat)) (k : String) (ks : List Nat) (q : Nat),
      (k, ks) ∈ (removePeersGo mid repo ids acc).2 → q ∈ ks →
        (∃ ks0, (k, ks0) ∈ acc ∧ q ∈ ks0) ∨
        (k = mid ∧ q ∈ ids) ∨
        (∃ pid ∈ ids, ∃ peer, alookup pid repo.peers = some peer ∧
          peer.partner_member = k ∧ peer.partner_peer = q) := by
  intro ids
  induction ids with
  | nil =>
    intro repo acc k ks q hmem hq
    exact Or.inl ⟨ks, hmem, hq⟩
  | cons p rest ih =>
    intro repo acc k ks q hmem hq
    cases hp : alookup p repo.peers with
    | none =>
      simp only [removePeersGo, hp] at hmem
      rcases ih repo acc k ks q hmem hq with h | ⟨rfl, hlist⟩ |
        ⟨pid, hpid, pr, hlook, hm, hq2⟩
      · exact Or.inl h
      · exact Or.inr (Or.inl ⟨rfl, List.mem_cons_of_mem _ hlist⟩)
      · exact Or.inr (Or.inr ⟨pid, List.mem_cons_of_mem _ hpid, pr, hlook,
          hm, hq2⟩)
    | some peer =>
      simp only [removePeersGo, hp] at hmem
      split at hmem
      next hc =>
        rcases ih _ _ k ks q hmem hq with h | ⟨rfl, hlist⟩ |
          ⟨pid, hpid, pr, hlook, hm, hq2⟩
        · obtain ⟨ks0, hks0, hq0⟩ := h
          rcases pushEntry_sound mid p _ k ks0 hks0 q hq0 with h2 | ⟨rfl, rfl⟩
          · obtain ⟨ks1, hks1, hq1⟩ := h2
            rcases pushEntry_sound peer.partner_member peer.partner_peer acc
              k ks1 hks1 q hq1 with h3 | ⟨rfl, rfl⟩
            · exact Or.inl h3
            · exact Or.inr (Or.inr ⟨p, List.mem_cons_self _ _, peer, hp,
                rfl, rfl⟩)
          · exact Or.inr (Or.inl ⟨rfl, List.mem_cons_self _ _⟩)
        · exact Or.inr (Or.inl ⟨rfl, List.mem_cons_of_mem _ hlist⟩)
        · have hlook2 : alookup pid repo.peers = some pr :=
            alookup_aerase_some (alookup_aerase_some hlook)
          exact Or.inr (Or.inr ⟨pid, List.mem_cons_of_mem _ hpid, pr, hlook2,
            hm, hq2⟩)
      next hc =>
        rcases ih _ _ k ks q hmem hq with h | ⟨rfl, hlist⟩ |
          ⟨pid, hpid, pr, hlook, hm, hq2⟩
        · obtain ⟨ks0, hks0, hq0⟩ := h
          rcases pushEntry_sound mid p _ k ks0 hks0 q hq0 with h2 | ⟨rfl, rfl⟩
          · exact Or.inl h2
          · exact Or.inr (Or.inl ⟨rfl, List.mem_cons_self _ _⟩)
        · exact Or.inr (Or.inl ⟨rfl, List.mem_cons_of_mem _ hlist⟩)
        · have hlook2 : alookup pid repo.peers = some pr :=
            alookup_aerase_some hlook
          exact Or.inr (Or.inr ⟨pid, List.mem_cons_of_mem _ hpid, pr, hlook2,
            hm, hq2⟩)

/-- The two-peer fixture repository has mutually consistent partner
pointers. -/
theorem repoW_consistent : PairConsistent repoW := by
  intro pid peer h
  have hm := alookup_some_mem h
  simp only [repoW, List.mem_cons, List.not_mem_nil, or_false,
    Prod.mk.injEq] at hm
  rcases hm with ⟨rfl, rfl⟩ | ⟨rfl, rfl⟩
  · exact ⟨pB, rfl, rfl, rfl, rfl⟩
  · exact ⟨pA, rfl, rfl, rfl, rfl⟩

/-- C8: on a repository with mutually consistent partner pointers,
`remove_peers(mid, ids)` removes every listed peer, removes the partner
of every listed peer that was present, and returns a map of exactly the
removed peers grouped by owning member: an id is recorded iff it was
present and is now gone, and every `(member, id)` entry is either a
listed id under the passed member id or the partner of a listed peer
under that peer's partner member. -/
theorem C8_remove_peers (r : PeerRepository) (mid : String) (ids : List Nat)
    (hcons : PairConsistent r) :
    (∀ pid ∈ ids, alookup pid (r.remove_peers mid ids).1.peers = none) ∧
    (∀ pid ∈ ids, ∀ peer, alookup pid r.peers = some peer →
      alookup peer.partner_peer (r.remove_peers mid ids).1.peers = none) ∧
    (∀ q, q ∈ groupedIds (r.remove_peers mid ids).2 ↔
      ((alookup q r.peers).isSome = true ∧
        alookup q (r.remove_peers mid ids).1.peers = none)) ∧
    (∀ k ks, (k, ks) ∈ (r.remove_peers mid ids).2 → ∀ q ∈ ks,
      (k = mid ∧ q ∈ ids) ∨
      (∃ pid ∈ ids, ∃ peer, alookup pid r.peers = some peer ∧
        peer.partner_member = k ∧ peer.partner_peer = q)) := by
  simp only [PeerRepository.remove_peers]
  have h1 := removePeersGo_listed mid ids r []
  have hpres := removePeersGo_preserves r hcons mid ids r []
    (fun k v h => h)
    (by
      intro k peer hki hkn
      rw [hki] at hkn
      exact Option.noConfusion hkn)
  refine ⟨h1, ?_, ?_, ?_⟩
  · intro pid hpid peer hpeer
    exact hpres.2 pid peer hpeer (h1 pid hpid)
  · intro q
    have hrec := removePeersGo_recorded mid ids r [] q
    simpa [groupedIds] using hrec
  · intro k ks hmem q hq
    rcases removePeersGo_grouping mid ids r [] k ks q hmem hq with
      ⟨ks0, h0, -⟩ | h | h
    · exact absurd h0 (List.not_mem_nil _)
    · exact Or.inl h
    · exact Or.inr h

/-- C8 (witness): the theorem applied to the concrete two-peer
repository, removing alice's peer 0 (and with it bob's partner
peer 1). -/
theorem C8_witness :
    (∀ pid ∈ [0], alookup pid (repoW.remove_peers "alice" [0]).1.peers = none) ∧
    (∀ pid ∈ [0], ∀ peer, alookup pid repoW.peers = some peer →
      alookup peer.partner_peer (repoW.remove_peers "alice" [0]).1.peers = none) ∧
    (∀ q, q ∈ groupedIds (repoW.remove_peers "alice" [0]).2 ↔
      ((alookup q repoW.peers).isSome = true ∧
        alookup q (repoW.remove_peers "alice" [0]).1.peers = none)) ∧
    (∀ k ks, (k, ks) ∈ (repoW.remove_peers "alice" [0]).2 → ∀ q ∈ ks,
      (k = "alice" ∧ q ∈ [0]) ∨
      (∃ pid ∈ [0], ∃ peer, alookup pid repoW.peers = some peer ∧
        peer.partner_member = k ∧ peer.partner_peer = q)) :=
  C8_remove_peers repoW "alice" [0] repoW_consistent

/-! ## Claim C1: the pending updates after negotiation completion -/

/-- Dispatching a non-empty change list produces at least one record. -/
theorem changeRecords_ne_nil (c : Context) (l : List TrackChange)
    (h : l ≠ []) : changeRecords c l ≠ [] := by
  obtain ⟨ch, rest, rfl⟩ := List.exists_cons_of_ne_nil h
  simp [changeRecords]

/-- IceRestart dedup never empties a non-empty pending list. -/
theorem dedupIce_ne_nil {l : List TrackChange} (h : l ≠ []) :
    dedupIceRestartsList l ≠ [] := by
  unfold dedupIceRestartsList lastIceRestartIdx
  cases hf : l.reverse.findIdx? isIceRestart with
  | none => simpa using h
  | some i =>
    obtain ⟨-, hlen, a, hget, hp⟩ :=
      findIdxGo_some isIceRestart l.reverse 0 i hf
    rw [Nat.sub_zero] at hlen hget
    rw [List.length_reverse] at hlen
    have hrev := List.get?_reverse (l := l) hlen
    rw [hrev] at hget
    have hcnt := countIce_retain (l.length - 1 - i) l 0 (Nat.zero_le _)
    rw [Nat.sub_zero, hget] at hcnt
    simp only [Option.map_some']
    show retainIceAt (l.length - 1 - i) 0 l ≠ []
    intro hnil
    rw [hnil] at hcnt
    simp [countIce, hp] at hcnt

/-- Drain-merging a non-empty list leaves a non-empty result: each entry
is either retained or merged into the patch map. -/
theorem drainMerge_ne_nil (d : List TrackChange) (hd : d ≠ []) :
    (drainMergeGo none [] d).2
      ++ ((drainMergeGo none [] d).1.map
          fun kv => TrackChange.TrackPatch kv.2) ≠ [] := by
  obtain ⟨ch, rest, rfl⟩ := List.exists_cons_of_ne_nil hd
  intro hcontra
  rw [List.append_eq_nil] at hcontra
  obtain ⟨h2, h1⟩ := hcontra
  rw [drainMergeGo_retained] at h2
  cases hdp : drainedPatch none ch with
  | none =>
    rw [List.filter_cons, if_pos (by simp [hdp])] at h2
    exact List.cons_ne_nil _ _ h2
  | some p =>
    obtain ⟨rfl, -⟩ := drainedPatch_eq_some hdp
    have hmem : p.id ∈ akeys
        (drainMergeGo none [] (TrackChange.TrackPatch p :: rest)).1 := by
      rw [mem_akeys_drainMergeGo]
      exact Or.inr ⟨⟨p, List.mem_cons_self _ _, rfl⟩, rfl⟩
    simp only [akeys] at hmem
    obtain ⟨kv, hkv, -⟩ := List.mem_map.mp hmem
    cases hL : (drainMergeGo none [] (TrackChange.TrackPatch p :: rest)).1 with
    | nil =>
      rw [hL] at hkv
      exact absurd hkv (List.not_mem_nil _)
    | cons x t =>
      rw [hL] at h1
      simp at h1

/-- Deduplication never empties a non-empty pending list. -/
theorem dedupRecords_ne_nil {l : List TrackChange} (h : l ≠ []) :
    dedupRecords l ≠ [] :=
  drainMerge_ne_nil _ (dedupIce_ne_nil h)

/-- The pending updates after `negotiation_finished` are exactly the
deduplicated records of the drained queue entries (the pre-transition
pending updates are discarded). -/
theorem negotiation_finished_pending (c : Context) :
    (c.negotiation_finished).1.pending_track_updates =
      dedupRecords (changeRecords
        { c with
          is_known_to_remote := true
          pending_track_updates := []
          track_changes_queue := [] } c.track_changes_queue) := by
  by_cases hq : c.track_changes_queue = []
  · unfold Context.negotiation_finished
    rw [commit_nil _ (by simpa using hq), hq]
    rfl
  · unfold Context.negotiation_finished
    rw [commit_spec
      { c with is_known_to_remote := true, pending_track_updates := [] }
      (by simpa using hq)]
    obtain ⟨s, r, hA⟩ := applyChanges_spec
      (({ c with is_known_to_remote := true, pending_track_updates := [] }
        : Context).track_changes_queue)
      { ({ c with is_known_to_remote := true, pending_track_updates := [] }
        : Context) with track_changes_queue := [] }
    have hPend : (Context.applyChanges
        { ({ c with is_known_to_remote := true, pending_track_updates := [] }
          : Context) with track_changes_queue := [] }
        (({ c with is_known_to_remote := true, pending_track_updates := [] }
          : Context).track_changes_queue)).pending_track_updates =
        changeRecords
          { c with
            is_known_to_remote := true
            pending_track_updates := []
            track_changes_queue := [] } c.track_changes_queue := by
      rw [hA]
      simp
    simp only [dedup_track_patches_pending, hPend]
    rfl

/-- C1 (amended): after `set_local_answer` on a `WaitLocalSdp` peer or
`set_remote_answer` on a `WaitRemoteSdp` peer, the peer is `Stable` with
`is_known_to_remote = true` and a drained `track_changes_queue`; the
pre-transition `pending_track_updates` are cleared and the buffer is then
set to the deduplicated records of the drained queue entries, so it is
empty immediately after the transition if and only if no changes were
queued during the wait. -/
theorem C1_negotiation_completion (c : Context) (sdp : String) :
    (c.set_local_answer sdp).1.state = PeerState.Stable ∧
    (c.set_local_answer sdp).1.ctx.is_known_to_remote = true ∧
    (c.set_local_answer sdp).1.ctx.track_changes_queue = [] ∧
    (c.set_local_answer sdp).1.ctx.pending_track_updates =
      dedupRecords (changeRecords
        { c with
          sdp_answer := some sdp
          is_known_to_remote := true
          pending_track_updates := []
          track_changes_queue := [] }
        c.track_changes_queue) ∧
    ((c.set_local_answer sdp).1.ctx.pending_track_updates = [] ↔
      c.track_changes_queue = []) ∧
    (c.set_remote_answer sdp).1.state = PeerState.Stable ∧
    (c.set_remote_answer sdp).1.ctx.is_known_to_remote = true ∧
    (c.set_remote_answer sdp).1.ctx.track_changes_queue = [] ∧
    (c.set_remote_answer sdp).1.ctx.pending_track_updates =
      dedupRecords (changeRecords
        { c with
          sdp_answer := some sdp
          is_known_to_remote := true
          pending_track_updates := []
          track_changes_queue := [] }
        c.track_changes_queue) ∧
    ((c.set_remote_answer sdp).1.ctx.pending_track_updates = [] ↔
      c.track_changes_queue = []) := by
  obtain ⟨h1, h2, -⟩ :=
    negotiation_finished_spec { c with sdp_answer := some sdp }
  have hpend := negotiation_finished_pending { c with sdp_answer := some sdp }
  have hpendL : (c.set_local_answer sdp).1.ctx.pending_track_updates =
      dedupRecords (changeRecords
        { c with
          sdp_answer := some sdp
          is_known_to_remote := true
          pending_track_updates := []
          track_changes_queue := [] }
        c.track_changes_queue) := hpend
  have hpendR : (c.set_remote_answer sdp).1.ctx.pending_track_updates =
      dedupRecords (changeRecords
        { c with
          sdp_answer := some sdp
          is_known_to_remote := true
          pending_track_updates := []
          track_changes_queue := [] }
        c.track_changes_queue) := hpend
  have hiffL : (c.set_local_answer sdp).1.ctx.pending_track_updates = [] ↔
      c.track_changes_queue = [] := by
    rw [hpendL]
    constructor
    · intro hp
      by_contra hqne
      exact dedupRecords_ne_nil (changeRecords_ne_nil _ _ hqne) hp
    · intro hq
      rw [hq]
      rfl
  have hiffR : (c.set_remote_answer sdp).1.ctx.pending_track_updates = [] ↔
      c.track_changes_queue = [] := by
    rw [hpendR]
    constructor
    · intro hp
      by_contra hqne
      exact dedupRecords_ne_nil (changeRecords_ne_nil _ _ hqne) hp
    · intro hq
      rw [hq]
      rfl
  exact ⟨rfl, h1, h2, hpendL, hiffL, rfl, h1, h2, hpendR, hiffR⟩

/-- C1 (witness): the amended theorem at the concrete base peer with one
queued change: the refilled buffer is non-empty, matching the drained
record. -/
theorem C1_witness :
    ((Context.set_remote_answer
        { baseCtx with track_changes_queue := [TrackChange.IceRestart] }
        "sdp").1.ctx.pending_track_updates = [] ↔
      ({ baseCtx with track_changes_queue := [TrackChange.IceRestart] }
        : Context).track_changes_queue = []) :=
  (C1_negotiation_completion
    { baseCtx with track_changes_queue := [TrackChange.IceRestart] }
    "sdp").2.2.2.2.2.2.2.2.2

end Medea
